import Mathlib

/-!
Verification development for the offline-markdown-preview rendering pipeline.
Strings on the JavaScript side are modelled as lists of Unicode code points
(`List Nat`), byte buffers as lists of naturals below 256, pixel values as
rationals, and HTML trees as an explicit inductive type.  Each definition
embeds one function of the source; the source file and symbol are named in
its doc comment.
-/

namespace Spec2Proof

/-- Valid Unicode scalar value: below 0x110000 and not a UTF-16 surrogate. -/
def ValidCp (c : Nat) : Prop := c < 1114112 ∧ ¬ (55296 ≤ c ∧ c < 57344)

instance (c : Nat) : Decidable (ValidCp c) := by
  unfold ValidCp
  infer_instance

/-- Code points of a Lean string, used to write concrete JS strings. -/
def strCps (s : String) : List Nat := s.data.map Char.toNat

/-- UTF-8 encoding of one code point (`Buffer.from(_, 'utf8')`). -/
def utf8EncodeCp (c : Nat) : List Nat :=
  if c < 128 then [c]
  else if c < 2048 then [192 + c / 64, 128 + c % 64]
  else if c < 65536 then [224 + c / 4096, 128 + c / 64 % 64, 128 + c % 64]
  else [240 + c / 262144, 128 + c / 4096 % 64, 128 + c / 64 % 64, 128 + c % 64]

/-- UTF-8 encoding of a code-point sequence. -/
def utf8Encode (cps : List Nat) : List Nat := cps.flatMap utf8EncodeCp

/-- Continuation-byte count and seed value for a UTF-8 lead byte; none for
bytes that can never start a valid sequence (stray continuations, overlong
2-byte leads 0xC0/0xC1, leads above 0xF4). -/
def contCount (b : Nat) : Option (Nat × Nat) :=
  if b < 128 then some (0, b)
  else if b < 194 then none
  else if b < 224 then some (1, b - 192)
  else if b < 240 then some (2, b - 224)
  else if b < 245 then some (3, b - 240)
  else none

/-- Accumulation of a code point over n continuation bytes; none when a byte
is missing or out of the continuation range. -/
def takeAcc : Nat → Nat → List Nat → Option Nat
  | 0, acc, _ => some acc
  | n + 1, acc, b2 :: rest =>
    if 128 ≤ b2 ∧ b2 < 192 then takeAcc n (acc * 64 + (b2 - 128)) rest else none
  | _ + 1, _, [] => none

/-- Validity of a decoded code point given its continuation count: rejects
overlong 3- and 4-byte forms, surrogates, and values beyond U+10FFFF. -/
def utf8CpOk : Nat → Nat → Bool
  | 2, cp => decide (2048 ≤ cp ∧ ¬ (55296 ≤ cp ∧ cp < 57344))
  | 3, cp => decide (65536 ≤ cp ∧ cp < 1114112)
  | _, _ => true

/-- Strict UTF-8 decoding of a byte sequence, rejecting truncated sequences,
stray continuation bytes, overlong forms and surrogates, as
`decodeURIComponent` does on percent-encoded bytes. -/
def utf8Decode : List Nat → Option (List Nat)
  | [] => some []
  | b :: rest =>
    match contCount b with
    | none => none
    | some (n, acc0) =>
      match takeAcc n acc0 rest with
      | none => none
      | some cp =>
        if utf8CpOk n cp then (utf8Decode (rest.drop n)).map (fun cs => cp :: cs) else none
termination_by l => l.length
decreasing_by
  simp only [List.length_cons, List.length_drop]
  omega

/-- Base64 alphabet used by `Buffer.toString('base64')` and `atob`. -/
def b64Alphabet : List Char :=
  "ABCDEFGHIJKLMNOPQRSTUVWXYZabcdefghijklmnopqrstuvwxyz0123456789+/".data

/-- Character for one sextet value. -/
def b64Char (n : Nat) : Char := b64Alphabet.getD n '='

/-- Sextet value of one base64 character, none for characters outside the
alphabet (including the padding character). -/
def b64Val (c : Char) : Option Nat := b64Alphabet.indexOf? c

/-- Base64 encoding of a byte sequence with padding, as
`Buffer.from(content, 'utf8').toString('base64')` produces. -/
def b64Encode : List Nat → List Char
  | [] => []
  | [b1] => [b64Char (b1 / 4), b64Char (b1 % 4 * 16), '=', '=']
  | [b1, b2] => [b64Char (b1 / 4), b64Char (b1 % 4 * 16 + b2 / 16), b64Char (b2 % 16 * 4), '=']
  | b1 :: b2 :: b3 :: rest =>
    b64Char (b1 / 4) :: b64Char (b1 % 4 * 16 + b2 / 16) ::
      b64Char (b2 % 16 * 4 + b3 / 64) :: b64Char (b3 % 64) :: b64Encode rest

/-- Reassembly of bytes from a padding-stripped sextet stream; fails when one
sextet is left over, as forgiving base64 decoding does. -/
def b64Assemble : List Nat → Option (List Nat)
  | [] => some []
  | [_] => none
  | [s1, s2] => some [s1 * 4 + s2 / 16]
  | [s1, s2, s3] => some [s1 * 4 + s2 / 16, s2 % 16 * 16 + s3 / 4]
  | s1 :: s2 :: s3 :: s4 :: rest =>
    (b64Assemble rest).map
      (fun bs => (s1 * 4 + s2 / 16) :: (s2 % 16 * 16 + s3 / 4) :: (s3 % 4 * 64 + s4) :: bs)

/-- ASCII whitespace stripped by forgiving base64 decoding. -/
def isB64Ws (c : Char) : Bool :=
  c = ' ' ∨ c = '\t' ∨ c = '\n' ∨ c = '\x0d' ∨ c = '\x0c'

/-- Removal of up to two leading padding characters of a reversed input. -/
def stripPadRev : List Char → List Char
  | '=' :: '=' :: rest => rest
  | '=' :: rest => rest
  | cs => cs

/-- Removal of up to two trailing padding characters when the input length is
a multiple of four. -/
def b64StripPad (cs : List Char) : List Char :=
  if cs.length % 4 = 0 then (stripPadRev cs.reverse).reverse else cs

/-- Model of `atob`: forgiving base64 decoding to a byte sequence, none when
the input is rejected (invalid character, bad length or misplaced padding). -/
def atobModel (cs : List Char) : Option (List Nat) :=
  ((b64StripPad (cs.filter (fun c => ! isB64Ws c))).mapM b64Val).bind b64Assemble

/-- Lowercase hex digit, as `toString(16)` produces. -/
def hexChar (n : Nat) : Char := "0123456789abcdef".data.getD n '0'

/-- Percent-encoding of a byte sequence: model of
`Array.from(atob(v)).map(c => '%' + c.charCodeAt(0).toString(16).padStart(2, '0')).join('')`
in `decodeBase64` (src/src/webview-ui/app/renderer.ts, lines 932-942). -/
def percentEncode : List Nat → List Char
  | [] => []
  | b :: rest => '%' :: hexChar (b / 16) :: hexChar (b % 16) :: percentEncode rest

/-- Value of one hex digit character, none for non-digits. -/
def hexVal (c : Char) : Option Nat := "0123456789abcdef".data.indexOf? c

/-- Parsing of a fully percent-encoded string back to its bytes; none when the
input is not a sequence of percent-escapes. -/
def percentToBytes : List Char → Option (List Nat)
  | [] => some []
  | '%' :: h1 :: h2 :: rest =>
    match hexVal h1, hexVal h2 with
    | some v1, some v2 => (percentToBytes rest).map (fun bs => (v1 * 16 + v2) :: bs)
    | _, _ => none
  | _ => none

/-- Model of `decodeBase64` (src/src/webview-ui/app/renderer.ts, lines
932-942): `atob`, then percent-encoding of every byte, then
`decodeURIComponent`; any thrown error is caught and yields the empty
string.  `decodeURIComponent` on an all-percent input is strict UTF-8
decoding of the escaped bytes. -/
def decodeBase64 (v : List Char) : List Nat :=
  ((atobModel v).bind
    (fun bytes => (percentToBytes (percentEncode bytes)).bind utf8Decode)).getD []

/-- Full payload encoder used by the fence and inline-math renderer rules:
`Buffer.from(text, 'utf8').toString('base64')`
(src/unnamed/part_005, lines 110-125 and 192-204). -/
def encodePayload (cps : List Nat) : List Char := b64Encode (utf8Encode cps)

/-- Unpadded sextet stream of a byte sequence. -/
def b64Sextets : List Nat → List Nat
  | [] => []
  | [b1] => [b1 / 4, b1 % 4 * 16]
  | [b1, b2] => [b1 / 4, b1 % 4 * 16 + b2 / 16, b2 % 16 * 4]
  | b1 :: b2 :: b3 :: rest =>
    b1 / 4 :: (b1 % 4 * 16 + b2 / 16) :: (b2 % 16 * 4 + b3 / 64) :: b3 % 64 :: b64Sextets rest

mutual
inductive Html where
  | text (s : List Nat)
  | el (tag : String) (attrs : List (String × List Char)) (children : HtmlList)
deriving DecidableEq
inductive HtmlList where
  | nil
  | cons (hd : Html) (tl : HtmlList)
deriving DecidableEq
end

/-- Concatenation of node lists. -/
def hAppend : HtmlList → HtmlList → HtmlList
  | .nil, t => t
  | .cons h rest, t => .cons h (hAppend rest t)

/-- First attribute value for a name, as `getAttribute` returns. -/
def getAttr (n : Html) (name : String) : Option (List Char) :=
  match n with
  | .text _ => none
  | .el _ attrs _ => attrs.lookup name

mutual
/-- Concatenated text content of one node. -/
def textContentHtml : Html → List Nat
  | .text s => s
  | .el _ _ children => textContentList children
/-- Concatenated text content of a node list. -/
def textContentList : HtmlList → List Nat
  | .nil => []
  | .cons h t => textContentHtml h ++ textContentList t
end

/-- JS `String.prototype.trim` whitespace test (ASCII part). -/
def isJsWs (c : Char) : Bool :=
  c = ' ' ∨ c = '\t' ∨ c = '\n' ∨ c = '\x0d' ∨ c = '\x0c' ∨ c = '\x0b'

/-- Leading and trailing whitespace removal, as `trim()`. -/
def jsTrim (s : List Char) : List Char :=
  ((s.dropWhile isJsWs).reverse.dropWhile isJsWs).reverse

/-- First whitespace-separated word, as `trim().split(/\s+/)[0] ?? ''`. -/
def firstWord (s : List Char) : List Char := (jsTrim s).takeWhile (fun c => ! isJsWs c)

/-- Model of the overridden fence renderer rule
(src/unnamed/part_005, lines 110-125): a fence whose info-string first word
is `mermaid` or `math` renders as a placeholder div carrying the
base64-encoded fence content; any other fence is delegated to the default
markdown-it renderer (an external dependency), modelled as `none`.  The
emitted HTML string is represented directly as the element it parses to. -/
def fenceRule (info : List Char) (content : List Nat)
    (lineAttrs : List (String × List Char)) : Option Html :=
  if firstWord info = "mermaid".data then
    some (.el "div" ([("class", "omv-mermaid".data)] ++ lineAttrs ++
      [("data-mermaid", encodePayload content)]) .nil)
  else if firstWord info = "math".data then
    some (.el "div" ([("class", "omv-math-block".data)] ++ lineAttrs ++
      [("data-math", encodePayload content)]) .nil)
  else none

/-- Tags of the DOMPurify html profile kept by the sanitizer (representative
subset covering everything the renderer emits). -/
def allowedTags : List String :=
  ["a", "b", "blockquote", "br", "code", "dd", "del", "details", "div", "dl", "dt",
   "em", "h1", "h2", "h3", "h4", "h5", "h6", "hr", "i", "img", "input", "label",
   "li", "mark", "ol", "p", "pre", "s", "section", "span", "strong", "sub", "summary",
   "sup", "table", "tbody", "td", "th", "thead", "tr", "ul"]

/-- The explicit deny-list from the sanitize call:
`FORBID_TAGS: ['script', 'iframe', 'object', 'embed', 'form']`
(src/src/webview-ui/app/renderer.ts, lines 67-86). -/
def forbidTags : List String := ["script", "iframe", "object", "embed", "form"]

/-- Tags whose entire content is dropped when the element is removed
(DOMPurify keeps children of other removed elements). -/
def forbidContentTags : List String := ["script", "style", "iframe", "object", "embed"]

/-- The custom attributes added to the sanitizer allow-list:
`ADD_ATTR: [...]` (src/src/webview-ui/app/renderer.ts, lines 70-81). -/
def addAttrList : List String :=
  ["data-mermaid", "data-math", "data-omv-link", "data-local-src", "data-max-mb",
   "data-source-line", "data-source-line-end", "data-align", "align"]

/-- Attributes kept by the sanitizer: a representative subset of the html
profile defaults plus the `ADD_ATTR` list from the source. -/
def allowedAttrs : List String :=
  ["alt", "checked", "class", "colspan", "decoding", "disabled", "href", "id",
   "loading", "open", "referrerpolicy", "rel", "rowspan", "src", "title", "type"] ++
    addAttrList

mutual
/-- Modelled from the spec: the DOMPurify sanitize engine itself is an external
dependency; section 4.3 specifies an allow-list of tags and attributes plus an
explicit deny-list for dangerous tags.  A node with a denied or unknown tag is
removed (its children are kept unless the tag also forbids content); an
allowed element keeps exactly its allow-listed attributes. -/
def sanitizeNode : Html → HtmlList
  | .text s => .cons (.text s) .nil
  | .el tag attrs children =>
    if tag ∈ forbidTags ∨ tag ∉ allowedTags then
      if tag ∈ forbidContentTags then .nil else sanitizeList children
    else
      .cons (.el tag (attrs.filter (fun p => p.1 ∈ allowedAttrs)) (sanitizeList children)) .nil
/-- Modelled from the spec: sanitization of a node list. -/
def sanitizeList : HtmlList → HtmlList
  | .nil => .nil
  | .cons h t => hAppend (sanitizeNode h) (sanitizeList t)
end

mutual
/-- Presence of an element with the given tag anywhere in a node. -/
def hasTagNode (t : String) : Html → Bool
  | .text _ => false
  | .el tag _ children => tag = t ∨ hasTagList t children
/-- Presence of an element with the given tag anywhere in a node list. -/
def hasTagList (t : String) : HtmlList → Bool
  | .nil => false
  | .cons h rest => hasTagNode t h ∨ hasTagList t rest
end

/-- Replacement of all children by one text node, as assigning
`node.textContent` does. -/
def setTextContent : Html → List Nat → Html
  | .text _, s => .text s
  | .el t a _, s => .el t a (.cons (.text s) .nil)

/-- Model of the disabled branch of `enhanceMath`
(src/src/webview-ui/app/renderer.ts, lines 157-165): the placeholder text
becomes the decoded payload of `data-math` (empty string when absent). -/
def disableMathNode (n : Html) : Html :=
  setTextContent n (decodeBase64 ((getAttr n "data-math").getD []))

/-- Model of the disabled branch of `enhanceMermaid`
(src/src/webview-ui/app/renderer.ts, lines 188-195): the placeholder text
becomes the decoded payload of `data-mermaid` (empty string when absent). -/
def disableMermaidNode (n : Html) : Html :=
  setTextContent n (decodeBase64 ((getAttr n "data-mermaid").getD []))

/-- Disabled-math pass over the queried `[data-math]` node list. -/
def disableMathPass (nodes : List Html) : List Html := nodes.map disableMathNode

/-- Disabled-diagram pass over the queried `.omv-mermaid[data-mermaid]` node
list. -/
def disableMermaidPass (nodes : List Html) : List Html := nodes.map disableMermaidNode

/-- Element observed by the scroll-sync controller: its document order, the
parsed `data-source-line` and `data-source-line-end` attributes (none for a
missing attribute or a `parseInt` NaN), and its measured geometry relative to
the scroll container. -/
structure MarkerEl where
  docPos : Nat
  lineAttr : Option Int
  endAttr : Option Int
  top : ℚ
  height : ℚ
deriving DecidableEq

/-- Cached marker record of `getMarkers` (src/unnamed/part_003, lines 72-90). -/
structure MarkerRec where
  el : MarkerEl
  line : Int
  endLine : Option Int
deriving DecidableEq

/-- Metric entry of `getMarkerMetrics` (src/unnamed/part_003, lines 92-111). -/
structure LineMarkerMetric where
  line : Int
  endLine : Option Int
  top : ℚ
  height : ℚ
deriving DecidableEq

/-- Comparator of the marker sort:
`(a, b) => a.line - b.line || compareDomPosition(a.el, b.el)`. -/
def markerLE (a b : MarkerRec) : Prop :=
  a.line < b.line ∨ (a.line = b.line ∧ a.el.docPos ≤ b.el.docPos)

instance : DecidableRel markerLE := fun a b => by
  unfold markerLE
  infer_instance

/-- Comparator of the metric sort: `(a, b) => a.top - b.top || a.line - b.line`. -/
def metricLE (a b : LineMarkerMetric) : Prop :=
  a.top < b.top ∨ (a.top = b.top ∧ a.line ≤ b.line)

instance : DecidableRel metricLE := fun a b => by
  unfold metricLE
  infer_instance

/-- Model of `getMarkers` (src/unnamed/part_003, lines 72-90): elements with a
parsed source line, `endLine` kept only when finite and greater than `line`,
sorted by line then document order.  The sort is a stable comparator sort; on
the strict total order (line, docPos) any sort yields this result. -/
def getMarkers (els : List MarkerEl) : List MarkerRec :=
  (els.filterMap (fun e =>
    match e.lineAttr with
    | none => none
    | some line =>
      some ⟨e, line,
        match e.endAttr with
        | some en => if line < en then some en else none
        | none => none⟩)).insertionSort markerLE

/-- Model of `getMarkerMetrics` (src/unnamed/part_003, lines 92-111): markers
resolved to measured (top, height) with height floored at 1, re-sorted by
(pixelTop, then line).  The `Number.isFinite` filter is vacuous over ℚ. -/
def getMarkerMetrics (els : List MarkerEl) : List LineMarkerMetric :=
  (((getMarkers els).map (fun m =>
    (⟨m.line, m.endLine, m.el.top, max 1 m.el.height⟩ : LineMarkerMetric)))).insertionSort
    metricLE

/-- Bracketing loop of `estimateScrollTopForLine` (src/unnamed/part_003,
lines 117-126): prev is the last entry with line not greater than the target,
next the first entry beyond it. -/
def bracketGo (line : Int) :
    LineMarkerMetric → List LineMarkerMetric → LineMarkerMetric × Option LineMarkerMetric
  | prev, [] => (prev, none)
  | prev, c :: rest => if line < c.line then (prev, some c) else bracketGo line c rest

/-- Fallback branches of `estimateScrollTopForLine`
(src/unnamed/part_003, lines 133-138): interpolation between prev and next
pixel tops, else prev.top. -/
def estViaNext (prev : LineMarkerMetric) (next : Option LineMarkerMetric) (line : Int) : ℚ :=
  match next with
  | some nx =>
    if prev.line < nx.line ∧ prev.line ≤ line ∧ line ≤ nx.line then
      prev.top + ((line - prev.line : ℤ) : ℚ) / max 1 ((nx.line - prev.line : ℤ) : ℚ) *
        (nx.top - prev.top)
    else prev.top
  | none => prev.top

/-- Interpolation value of `estimateScrollTopForLine`
(src/unnamed/part_003, lines 128-138).  The JS truthiness test
`prev.endLine && ...` is the `e ≠ 0` conjunct. -/
def estValue (prev : LineMarkerMetric) (next : Option LineMarkerMetric) (line : Int) : ℚ :=
  match prev.endLine with
  | some e =>
    if e ≠ 0 ∧ prev.line < e ∧ prev.line ≤ line ∧ line < e then
      prev.top + ((line - prev.line : ℤ) : ℚ) / max 1 ((e - prev.line : ℤ) : ℚ) * prev.height
    else estViaNext prev next line
  | none => estViaNext prev next line

/-- Line-to-pixel interpolation over a built metric list
(src/unnamed/part_003, lines 113-139). -/
def estimateFromMetrics (metrics : List LineMarkerMetric) (line : Int) : Option ℚ :=
  match metrics with
  | [] => none
  | m0 :: rest => some (estValue (bracketGo line m0 rest).1 (bracketGo line m0 rest).2 line)

/-- Full `estimateScrollTopForLine` over the observed elements. -/
def estimateScrollTopForLine (els : List MarkerEl) (line : Int) : Option ℚ :=
  estimateFromMetrics (getMarkerMetrics els) line

/-- JS `Math.round`: round half toward positive infinity. -/
def jsRound (q : ℚ) : ℤ := ⌊q + 1 / 2⌋

/-- Model of `applyEditorScroll` (src/unnamed/part_003, lines 45-52): the
mapped offset (or the percent fallback) clamped to the scrollable range and
rounded. -/
def applyEditorScroll (els : List MarkerEl) (scrollHeight clientHeight : ℚ)
    (percent : ℚ) (line : Option Int) : ℤ :=
  jsRound (min (max 0 (scrollHeight - clientHeight))
    (max 0 (((line.bind (fun l => estimateScrollTopForLine els l)).getD
      (percent * max 0 (scrollHeight - clientHeight))))))

instance : IsTrans MarkerRec markerLE where
  trans := by
    intro a b c hab hbc
    unfold markerLE at *
    omega

instance : IsTotal MarkerRec markerLE where
  total := by
    intro a b
    unfold markerLE
    omega

instance : IsTrans LineMarkerMetric metricLE where
  trans := by
    intro a b c hab hbc
    unfold metricLE at *
    rcases hab with h1 | ⟨e1, l1⟩
    · rcases hbc with h2 | ⟨e2, l2⟩
      · exact Or.inl (lt_trans h1 h2)
      · exact Or.inl (e2 ▸ h1)
    · rcases hbc with h2 | ⟨e2, l2⟩
      · exact Or.inl (e1 ▸ h2)
      · exact Or.inr ⟨e1.trans e2, le_trans l1 l2⟩

instance : IsTotal LineMarkerMetric metricLE where
  total := by
    intro a b
    unfold metricLE
    rcases lt_trichotomy a.top b.top with h | h | h
    · exact Or.inl (Or.inl h)
    · rcases le_total a.line b.line with hl | hl
      · exact Or.inl (Or.inr ⟨h, hl⟩)
      · exact Or.inr (Or.inr ⟨h.symm, hl⟩)
    · exact Or.inr (Or.inl h)

/-- Transform state of the interactive diagram viewer
(src/src/webview-ui/app/renderer.ts, lines 653-666). -/
structure ViewerState where
  scale : ℚ
  tx : ℚ
  ty : ℚ
  minScale : ℚ
  maxScale : ℚ
  touched : Bool
deriving DecidableEq

/-- JS-style clamp: `Math.min(max, Math.max(min, value))`
(src/src/webview-ui/app/renderer.ts, lines 864-866). -/
def clampQ (value lo hi : ℚ) : ℚ := min hi (max lo value)

/-- Model of `clampPan` (src/src/webview-ui/app/renderer.ts, lines 868-896):
content smaller than the viewport on an axis is centered there; otherwise the
translate is clamped so a margin of 8 stays reachable. -/
def clampPan (tx ty vw vh nw nh scale : ℚ) : ℚ × ℚ :=
  (if nw * scale + 16 ≤ vw then (vw - nw * scale) / 2
    else clampQ tx (vw - nw * scale - 8) 8,
   if nh * scale + 16 ≤ vh then (vh - nh * scale) / 2
    else clampQ ty (vh - nh * scale - 8) 8)

/-- New scale of a zoom step: the old scale times the factor, clamped to
[minScale, maxScale] (src/src/webview-ui/app/renderer.ts, line 703). -/
def zoomNextScale (st : ViewerState) (factor : ℚ) : ℚ :=
  clampQ (st.scale * factor) st.minScale st.maxScale

/-- Recomputed (pre-clamp) x translate of `zoomAt`: the anchor keeps its
content-space point, `tx = localX - worldX * nextScale`
(src/src/webview-ui/app/renderer.ts, lines 705-708). -/
def zoomRawTx (st : ViewerState) (factor localX : ℚ) : ℚ :=
  localX - (localX - st.tx) / st.scale * zoomNextScale st factor

/-- Recomputed (pre-clamp) y translate of `zoomAt`. -/
def zoomRawTy (st : ViewerState) (factor localY : ℚ) : ℚ :=
  localY - (localY - st.ty) / st.scale * zoomNextScale st factor

/-- Model of `zoomAt` followed by `applyTransform`
(src/src/webview-ui/app/renderer.ts, lines 671-712): no-op when the clamped
scale moves by less than 0.0001, otherwise the recomputed translate is pan
clamped and the state updated.  The rendered screen position of a
content-space point w is `tx + w * scale`. -/
def zoomAt (st : ViewerState) (vw vh nw nh factor localX localY : ℚ) : ViewerState :=
  if |zoomNextScale st factor - st.scale| < 1 / 10000 then st
  else
    { scale := zoomNextScale st factor,
      tx := (clampPan (zoomRawTx st factor localX) (zoomRawTy st factor localY)
        vw vh nw nh (zoomNextScale st factor)).1,
      ty := (clampPan (zoomRawTx st factor localX) (zoomRawTy st factor localY)
        vw vh nw nh (zoomNextScale st factor)).2,
      minScale := st.minScale,
      maxScale := st.maxScale,
      touched := true }

/-- Inline math placeholder markup emitted by the text renderer rule
(src/unnamed/part_005, lines 196-203): the expression is trimmed and
base64-encoded into the `data-math` attribute.  Both the double- and the
single-dollar replacement emit this same markup. -/
def mathPlaceholder (expr : List Char) : List Char :=
  "<span class=\"omv-math-inline\" data-math=\"".data ++
    encodePayload ((jsTrim expr).map Char.toNat) ++ "\"></span>".data

/-- Test whether a character list starts with a dollar sign. -/
def startsDollar : List Char → Bool
  | '$' :: _ => true
  | _ => false

/-- Test whether a character list starts with two dollar signs. -/
def startsDD : List Char → Bool
  | '$' :: '$' :: _ => true
  | _ => false

/-- Scanner for the first replacement pass
`raw.replace(/\$\$([^$]+)\$\$/g, ...)` (src/unnamed/part_005, line 196):
at `$$` the maximal nonempty run of non-dollar characters must be followed by
`$$`; on a match scanning resumes after the closing delimiter, otherwise one
character ahead, exactly as the regex engine does. -/
def scanDouble : List Char → List Char
  | [] => []
  | '$' :: '$' :: rest =>
    if rest.takeWhile (fun c => c ≠ '$') ≠ [] ∧
        startsDD (rest.dropWhile (fun c => c ≠ '$')) = true then
      mathPlaceholder (rest.takeWhile (fun c => c ≠ '$')) ++
        scanDouble ((rest.dropWhile (fun c => c ≠ '$')).drop 2)
    else '$' :: scanDouble ('$' :: rest)
  | c :: rest => c :: scanDouble rest
termination_by s => s.length
decreasing_by
  · have h1 : (rest.dropWhile (fun c => c ≠ '$')).length ≤ rest.length :=
      (List.dropWhile_suffix (fun c => c ≠ '$')).length_le
    simp only [List.length_cons, List.length_drop]
    omega
  · simp only [List.length_cons]
    omega
  · simp only [List.length_cons]
    omega

/-- Scanner for the second replacement pass
`.replace(/\$([^$\n]+)\$/g, ...)` (src/unnamed/part_005, line 200): the run
may not contain a newline and a single closing dollar suffices. -/
def scanSingle : List Char → List Char
  | [] => []
  | '$' :: rest =>
    if rest.takeWhile (fun c => c ≠ '$' ∧ c ≠ '\n') ≠ [] ∧
        startsDollar (rest.dropWhile (fun c => c ≠ '$' ∧ c ≠ '\n')) = true then
      mathPlaceholder (rest.takeWhile (fun c => c ≠ '$' ∧ c ≠ '\n')) ++
        scanSingle ((rest.dropWhile (fun c => c ≠ '$' ∧ c ≠ '\n')).drop 1)
    else '$' :: scanSingle rest
  | c :: rest => c :: scanSingle rest
termination_by s => s.length
decreasing_by
  · have h1 : (rest.dropWhile (fun c => c ≠ '$' ∧ c ≠ '\n')).length ≤ rest.length :=
      (List.dropWhile_suffix (fun c => c ≠ '$' ∧ c ≠ '\n')).length_le
    simp only [List.length_cons, List.length_drop]
    omega
  · simp only [List.length_cons]
    omega
  · simp only [List.length_cons]
    omega

/-- Full text renderer rule (src/unnamed/part_005, lines 192-204): the
double-dollar pass runs first, then the single-dollar pass over its output. -/
def mathText (s : List Char) : List Char := scanSingle (scanDouble s)

/-- JSON value model for the message boundary; numbers are JS doubles,
modelled as rationals. -/
inductive Json where
  | null
  | bool (b : Bool)
  | num (q : ℚ)
  | str (s : String)
  | arr (xs : List Json)
  | obj (fields : List (String × Json))

/-- Object field lookup. -/
def getField (fields : List (String × Json)) (k : String) : Option Json :=
  fields.lookup k

/-- Validation of `z.number().min(0).max(1)` (the percent schema,
src/src/extension/messaging/validate.ts, line 8). -/
def asPercent : Json → Option ℚ
  | .num q => if 0 ≤ q ∧ q ≤ 1 then some q else none
  | _ => none

/-- Validation of `z.number().int().min(0)`. -/
def asNonnegInt : Json → Option Int
  | .num q => if q.den = 1 ∧ 0 ≤ q then some q.num else none
  | _ => none

/-- Validation of an integer with inclusive bounds, as
`z.number().int().min(lo).max(hi)`. -/
def asIntBetween (lo hi : Int) : Json → Option Int
  | .num q => if q.den = 1 ∧ lo ≤ q.num ∧ q.num ≤ hi then some q.num else none
  | _ => none

/-- Validation of `z.string()`. -/
def asStr : Json → Option String
  | .str s => some s
  | _ => none

/-- Validation of `z.string().min(1)`. -/
def asNonemptyStr : Json → Option String
  | .str s => if 1 ≤ s.length then some s else none
  | _ => none

/-- Validation of `z.boolean()`. -/
def asBool : Json → Option Bool
  | .bool b => some b
  | _ => none

/-- Validation of `z.enum(vals)`. -/
def asEnum (vals : List String) : Json → Option String
  | .str s => if s ∈ vals then some s else none
  | _ => none

/-- Validation of an optional field: absent is fine, present must validate. -/
def optField (fields : List (String × Json)) (k : String)
    (f : Json → Option α) : Option (Option α) :=
  match getField fields k with
  | none => some none
  | some j => (f j).map some

/-- Parsed webview-to-extension message
(src/src/extension/messaging/validate.ts, lines 10-37). -/
inductive WebviewMsg where
  | ready
  | previewScroll (percent : ℚ) (line : Option Int)
  | openLink (href : String) (kindHint : Option String)
  | headingSelected (headingId : String)
  | copyHeadingLink (headingId : String)
  | searchMsg (action : String) (query : Option String)
  | pdfExportResult (ok : Bool) (error : Option String)
  | openImage (src : String)
  | requestExport
  | htmlExportSnapshot (requestId : Int) (html : String)

/-- Model of `parseWebviewMessage` (src/src/extension/messaging/validate.ts,
lines 81-83): the zod discriminated union on `type`; any shape failure is
`none` (zod throws, the caller catches).  Unknown object keys are ignored,
as `z.object` strips them. -/
def parseWebviewMessage : Json → Option WebviewMsg
  | .obj fields =>
    match getField fields "type" with
    | some (.str "ready") => some .ready
    | some (.str "previewScroll") =>
      match (getField fields "percent").bind asPercent,
          optField fields "line" asNonnegInt with
      | some p, some l => some (.previewScroll p l)
      | _, _ => none
    | some (.str "openLink") =>
      match (getField fields "href").bind asNonemptyStr,
          optField fields "kindHint"
            (asEnum ["heading", "external", "relative", "unknown"]) with
      | some h, some k => some (.openLink h k)
      | _, _ => none
    | some (.str "headingSelected") =>
      match (getField fields "headingId").bind asNonemptyStr with
      | some h => some (.headingSelected h)
      | none => none
    | some (.str "copyHeadingLink") =>
      match (getField fields "headingId").bind asNonemptyStr with
      | some h => some (.copyHeadingLink h)
      | none => none
    | some (.str "search") =>
      match (getField fields "action").bind
          (asEnum ["query", "next", "prev", "clear"]),
          optField fields "query" asStr with
      | some a, some q => some (.searchMsg a q)
      | _, _ => none
    | some (.str "pdfExportResult") =>
      match (getField fields "ok").bind asBool, optField fields "error" asStr with
      | some ok, some e => some (.pdfExportResult ok e)
      | _, _ => none
    | some (.str "openImage") =>
      match (getField fields "src").bind asNonemptyStr with
      | some s => some (.openImage s)
      | none => none
    | some (.str "requestExport") => some .requestExport
    | some (.str "htmlExportSnapshot") =>
      match (getField fields "requestId").bind asNonnegInt,
          (getField fields "html").bind asStr with
      | some r, some h => some (.htmlExportSnapshot r h)
      | _, _ => none
    | _ => none
  | _ => none

/-- Parsed toc entry of the render message schema. -/
structure TocEntryM where
  id : String
  level : Int
  text : String
  line : Int

/-- Parsed render settings of the render message schema. -/
structure RenderSettingsM where
  enableMermaid : Bool
  enableMath : Bool
  scrollSync : Bool
  sanitizeHtml : Bool
  showFrontmatter : Bool

/-- Parsed frontmatter payload: raw text plus an arbitrary key-value record. -/
structure FrontmatterM where
  raw : String
  data : List (String × Json)

/-- Validation of one toc entry object. -/
def asTocEntry : Json → Option TocEntryM
  | .obj f =>
    match (getField f "id").bind asStr, (getField f "level").bind (asIntBetween 1 6),
        (getField f "text").bind asStr, (getField f "line").bind asNonnegInt with
    | some i, some lv, some t, some ln => some ⟨i, lv, t, ln⟩
    | _, _, _, _ => none
  | _ => none

/-- Validation of the toc array. -/
def asTocList : Json → Option (List TocEntryM)
  | .arr xs => xs.mapM asTocEntry
  | _ => none

/-- Validation of the settings object. -/
def asSettings : Json → Option RenderSettingsM
  | .obj f =>
    match (getField f "enableMermaid").bind asBool, (getField f "enableMath").bind asBool,
        (getField f "scrollSync").bind asBool, (getField f "sanitizeHtml").bind asBool,
        (getField f "showFrontmatter").bind asBool with
    | some a, some b, some c, some d, some e => some ⟨a, b, c, d, e⟩
    | _, _, _, _, _ => none
  | _ => none

/-- Validation of the optional frontmatter object. -/
def asFrontmatter : Json → Option FrontmatterM
  | .obj f =>
    match getField f "raw", getField f "data" with
    | some (.str r), some (.obj d) => some ⟨r, d⟩
    | _, _ => none
  | _ => none

/-- Parsed extension-to-webview message
(src/src/extension/messaging/validate.ts, lines 39-79). -/
inductive ExtMsg where
  | render (requestId : Int) (documentUri : String) (version : Int) (html : String)
      (toc : List TocEntryM) (frontmatter : Option FrontmatterM)
      (editorLineCount : Int) (settings : RenderSettingsM)
  | editorScroll (percent : ℚ) (line : Option Int)
  | notify (level : String) (message : String)
  | searchCommand (action : String)
  | exportPdf
  | requestHtmlExportSnapshot (requestId : Int)

/-- Model of `parseExtensionMessage` (src/src/extension/messaging/validate.ts,
lines 85-87). -/
def parseExtensionMessage : Json → Option ExtMsg
  | .obj fields =>
    match getField fields "type" with
    | some (.str "render") =>
      match (getField fields "requestId").bind asNonnegInt,
          (getField fields "documentUri").bind asNonemptyStr,
          (getField fields "version").bind asNonnegInt,
          (getField fields "html").bind asStr,
          (getField fields "toc").bind asTocList with
      | some rid, some uri, some v, some h, some toc =>
        match optField fields "frontmatter" asFrontmatter,
            (getField fields "editorLineCount").bind
              (fun j => (asNonnegInt j).bind (fun n => if 1 ≤ n then some n else none)),
            (getField fields "settings").bind asSettings with
        | some fm, some lc, some st =>
          some (.render rid uri v h toc fm lc st)
        | _, _, _ => none
      | _, _, _, _, _ => none
    | some (.str "editorScroll") =>
      match (getField fields "percent").bind asPercent,
          optField fields "line" asNonnegInt,
          getField fields "source" with
      | some p, some l, some (.str "extension") => some (.editorScroll p l)
      | _, _, _ => none
    | some (.str "notify") =>
      match (getField fields "level").bind (asEnum ["info", "warning", "error"]),
          (getField fields "message").bind asStr with
      | some lv, some m => some (.notify lv m)
      | _, _ => none
    | some (.str "searchCommand") =>
      match (getField fields "action").bind
          (asEnum ["open", "next", "prev", "clear"]) with
      | some a => some (.searchCommand a)
      | none => none
    | some (.str "exportPdf") => some .exportPdf
    | some (.str "requestHtmlExportSnapshot") =>
      match (getField fields "requestId").bind asNonnegInt with
      | some r => some (.requestHtmlExportSnapshot r)
      | none => none
    | _ => none
  | _ => none

/-- Extension-side state touched by `handleWebviewMessage`
(src/unnamed/part_004). -/
structure ExtState where
  suppressEditorScrollUntil : ℚ
  pendingSnapshotId : Option Int

/-- Outbound actions of the extension-side handler. -/
inductive ExtEffect where
  | renderNow
  | revealLine (line : Int)
  | openLink (href : String)
  | revealHeading (id : String)
  | copyHeadingLink (id : String)
  | showWarning (msg : String)
  | openImage (src : String)
  | showExportPicker
  | resolveSnapshot (html : String)

/-- Dispatch of a parsed webview message
(src/unnamed/part_004, lines 425-505). -/
def dispatchWebviewMsg (now : ℚ) (hasEditor scrollSync : Bool) (maxLine : Int)
    (st : ExtState) : WebviewMsg → ExtState × List ExtEffect
  | .ready => (st, [.renderNow])
  | .previewScroll percent line =>
    if hasEditor ∧ scrollSync then
      ({ st with suppressEditorScrollUntil := now + 250 },
        [.revealLine (min maxLine (max 0 (match line with
          | some l => l
          | none => jsRound (percent * (maxLine : ℚ)))))])
    else (st, [])
  | .openLink href _ => (st, [.openLink href])
  | .headingSelected id =>
    ({ st with suppressEditorScrollUntil := now + 500 }, [.revealHeading id])
  | .copyHeadingLink id => (st, [.copyHeadingLink id])
  | .searchMsg _ _ => (st, [])
  | .pdfExportResult ok err =>
    match ok, err with
    | false, some e => if e ≠ "" then (st, [.showWarning e]) else (st, [])
    | _, _ => (st, [])
  | .openImage src => (st, [.openImage src])
  | .requestExport => (st, [.showExportPicker])
  | .htmlExportSnapshot rid html =>
    if st.pendingSnapshotId = some rid then
      ({ st with pendingSnapshotId := none }, [.resolveSnapshot html])
    else (st, [])

/-- Model of `PreviewController.handleWebviewMessage`
(src/unnamed/part_004, lines 417-424): a message failing schema validation is
dropped with no state change and no outbound action. -/
def handleWebviewMessage (now : ℚ) (hasEditor scrollSync : Bool) (maxLine : Int)
    (st : ExtState) (raw : Json) : ExtState × List ExtEffect :=
  (parseWebviewMessage raw).elim (st, [])
    (dispatchWebviewMsg now hasEditor scrollSync maxLine st)

/-- Webview-side actions of `handleMessage` (src/src/webview-ui/index.ts). -/
inductive WvEffect where
  | applyRender (requestId : Int)
  | applyEditorScroll (percent : ℚ) (line : Option Int)
  | setMeta (msg : String)
  | searchOpen
  | searchNext
  | searchPrev
  | searchClear
  | printPdf
  | postSnapshot (requestId : Int)

/-- Dispatch of a parsed extension message
(src/src/webview-ui/index.ts, lines 187-254). -/
def dispatchExtMsg : ExtMsg → List WvEffect
  | .render rid _ _ _ _ _ _ _ => [.applyRender rid]
  | .editorScroll p l => [.applyEditorScroll p l]
  | .notify _ m => [.setMeta m]
  | .searchCommand a =>
    if a = "open" then [.searchOpen]
    else if a = "next" then [.searchNext]
    else if a = "prev" then [.searchPrev]
    else [.searchClear]
  | .exportPdf => [.printPdf]
  | .requestHtmlExportSnapshot rid => [.postSnapshot rid]

/-- Model of the window message listener
(src/src/webview-ui/index.ts, lines 166-175): a message failing schema
validation is silently ignored, `handleMessage` is never invoked. -/
def windowMessageListener (raw : Json) : List WvEffect :=
  (parseExtensionMessage raw).elim [] dispatchExtMsg

/-! DOM model for the in-view search claims.  A mark element carries a flag
standing for the `omv-search-hit` class; other attributes are irrelevant to
search and omitted. -/

mutual
inductive DomNode where
  | text (s : List Char)
  | el (tag : String) (hit : Bool) (children : DomForest)
deriving DecidableEq
inductive DomForest where
  | nil
  | cons (hd : DomNode) (tl : DomForest)
deriving DecidableEq
end

/-- Concatenation of DOM forests. -/
def dAppend : DomForest → DomForest → DomForest
  | .nil, b => b
  | .cons n tl, b => .cons n (dAppend tl b)

mutual
/-- Concatenated text content of a node. -/
def textContN : DomNode → List Char
  | .text s => s
  | .el _ _ cs => textContF cs
/-- Concatenated text content of a forest. -/
def textContF : DomForest → List Char
  | .nil => []
  | .cons n tl => textContN n ++ textContF tl
end

/-- Test whether a forest starts with a text node. -/
def headIsText : DomForest → Bool
  | .cons (.text _) _ => true
  | _ => false

/-- Unwrapping of every hit mark, as `PreviewSearch.clear`
(src/src/webview-ui/app/toc.ts, lines 43-56) moves each mark's children in
front of it and removes the mark. -/
def unwrapF : DomForest → DomForest
  | .nil => .nil
  | .cons (.text s) tl => .cons (.text s) (unwrapF tl)
  | .cons (.el tag true cs) tl => dAppend (unwrapF cs) (unwrapF tl)
  | .cons (.el tag false cs) tl => .cons (.el tag false (unwrapF cs)) (unwrapF tl)

/-- Merge step of `Node.normalize`: a text node is merged into a following
text node when one is adjacent. -/
def normCons (s : List Char) (r : DomForest) : DomForest :=
  match r with
  | .cons (.text s2) tl2 => .cons (.text (s ++ s2)) tl2
  | _ => .cons (.text s) r

/-- Model of `Node.normalize` over a forest: empty text nodes are dropped and
adjacent text nodes merged, recursively. -/
def normalizeF : DomForest → DomForest
  | .nil => .nil
  | .cons (.text s) tl => if s = [] then normalizeF tl else normCons s (normalizeF tl)
  | .cons (.el t h cs) tl => .cons (.el t h (normalizeF cs)) (normalizeF tl)

/-- Tree-level effect of `PreviewSearch.clear` (src/src/webview-ui/app/toc.ts,
lines 43-56): every hit span is unwrapped and the affected parents are
normalized (the stored hit list is exactly the marks in the tree). -/
def clearF (f : DomForest) : DomForest := normalizeF (unwrapF f)

/-- ASCII lowercasing, modelling the case-insensitive `i` regex flag. -/
def lowerChar (c : Char) : Char :=
  if 'A' ≤ c ∧ c ≤ 'Z' then Char.ofNat (c.toNat + 32) else c

/-- Case-insensitive literal prefix test (the query is regex-escaped, so the
match is literal). -/
def ciPrefixAt (q s : List Char) : Bool :=
  (s.take q.length).map lowerChar = q.map lowerChar

/-- Occurrence test over a text value, as `matcher.test(value)`. -/
def hasOcc (q : List Char) : List Char → Bool
  | [] => false
  | c :: t => ciPrefixAt q (c :: t) || hasOcc q t

/-- Segmentation of one text value into plain and hit runs: the left-to-right
non-overlapping global matching of `value.matchAll(matcher)`, with the
pending unmatched characters carried reversed in `acc`. -/
def segsGo (qh : Char) (qt : List Char) : List Char → List Char → List (Bool × List Char)
  | [], acc => if acc = [] then [] else [(false, acc.reverse)]
  | c :: t, acc =>
    if ciPrefixAt (qh :: qt) (c :: t) then
      (if acc = [] then [] else [(false, acc.reverse)]) ++
        (true, (c :: t).take (qt.length + 1)) :: segsGo qh qt ((c :: t).drop (qt.length + 1)) []
    else segsGo qh qt t (c :: acc)
termination_by s _ => s.length
decreasing_by
  · simp only [List.length_cons, List.length_drop]
    omega
  · simp only [List.length_cons]
    omega

/-- Piece list of one highlighted text node, as the fragment built in
`PreviewSearch.query` (src/src/webview-ui/app/toc.ts, lines 86-105): plain
runs stay text nodes, matches become hit marks wrapping their matched text. -/
def piecesF (qh : Char) (qt : List Char) (s : List Char) : DomForest :=
  (segsGo qh qt s []).foldr
    (fun p r =>
      if p.1 then DomForest.cons (.el "mark" true (.cons (.text p.2) .nil)) r
      else DomForest.cons (.text p.2) r) .nil

/-- Tags whose text the tree walker rejects:
`parent.closest('script, style, pre')` (src/src/webview-ui/app/toc.ts,
line 68). -/
def excludedTag (tag : String) : Bool :=
  tag = "script" ∨ tag = "style" ∨ tag = "pre"

/-- Highlight pass of `PreviewSearch.query` (src/src/webview-ui/app/toc.ts,
lines 62-105): whitespace-only text nodes and text under excluded tags are
skipped, text without an occurrence is left alone, and matching text nodes
are replaced by their piece list. -/
def hlF (qh : Char) (qt : List Char) : DomForest → DomForest
  | .nil => .nil
  | .cons (.text s) tl =>
    if jsTrim s = [] then .cons (.text s) (hlF qh qt tl)
    else if hasOcc (qh :: qt) s then dAppend (piecesF qh qt s) (hlF qh qt tl)
    else .cons (.text s) (hlF qh qt tl)
  | .cons (.el tag hit cs) tl =>
    if excludedTag tag then .cons (.el tag hit cs) (hlF qh qt tl)
    else .cons (.el tag hit (hlF qh qt cs)) (hlF qh qt tl)

/-- Full `PreviewSearch.query` (src/src/webview-ui/app/toc.ts, lines 58-112):
always clear first; an empty trimmed term stops there, otherwise highlight. -/
def queryF (term : List Char) (f : DomForest) : DomForest :=
  match jsTrim term with
  | [] => clearF f
  | qh :: qt => hlF qh qt (clearF f)

mutual
/-- Absence of hit marks in a node. -/
def markFreeN : DomNode → Bool
  | .text _ => true
  | .el _ hit cs => !hit && markFreeF cs
/-- Absence of hit marks in a forest. -/
def markFreeF : DomForest → Bool
  | .nil => true
  | .cons n tl => markFreeN n && markFreeF tl
end

mutual
/-- Normal form of a node (as HTML parsing produces): no empty text nodes,
no adjacent text siblings, recursively. -/
def normedN : DomNode → Bool
  | .text s => s ≠ []
  | .el _ _ cs => normedF cs
/-- Normal form of a forest. -/
def normedF : DomForest → Bool
  | .nil => true
  | .cons (.text s) tl => (s ≠ []) && !headIsText tl && normedF tl
  | .cons (.el t h cs) tl => normedF cs && normedF tl
end

mutual
/-- Hit spans of a node in document order, with the global text offset of
each span and its covered text. -/
def hitsN (off : Nat) : DomNode → List (Nat × List Char)
  | .text _ => []
  | .el _ hit cs => if hit then [(off, textContF cs)] else hitsF off cs
/-- Hit spans of a forest in document order. -/
def hitsF (off : Nat) : DomForest → List (Nat × List Char)
  | .nil => []
  | .cons n tl => hitsN off n ++ hitsF (off + (textContN n).length) tl
end

/-- Text-node forest of a segment list: the shape left after unwrapping the
hit marks of a freshly highlighted text node. -/
def textsF (segs : List (Bool × List Char)) : DomForest :=
  segs.foldr (fun p r => .cons (.text p.2) r) .nil

theorem b64Val_b64Char : ∀ n < 64, b64Val (b64Char n) = some n := by decide

theorem b64Char_ne_eq : ∀ n < 64, b64Char n ≠ '=' := by decide

theorem isB64Ws_b64Char : ∀ n < 64, isB64Ws (b64Char n) = false := by decide

theorem hexVal_hexChar : ∀ n < 16, hexVal (hexChar n) = some n := by decide

theorem isB64Ws_pad : isB64Ws '=' = false := by decide

theorem percentToBytes_percentEncode :
    ∀ bs : List Nat, (∀ b ∈ bs, b < 256) → percentToBytes (percentEncode bs) = some bs := by
  intro bs
  induction bs with
  | nil => intro _; rfl
  | cons b rest ih =>
    intro h
    have hb : b < 256 := h b (List.mem_cons_self b rest)
    have h1 : b / 16 < 16 := by omega
    have h2 : b % 16 < 16 := by omega
    have hbs : b / 16 * 16 + b % 16 = b := by omega
    simp [percentEncode, percentToBytes, hexVal_hexChar _ h1, hexVal_hexChar _ h2,
      ih (fun x hx => h x (List.mem_cons_of_mem b hx)), hbs]

theorem b64Encode_length_mod : ∀ bs : List Nat, (b64Encode bs).length % 4 = 0 := by
  intro bs
  induction bs using b64Encode.induct with
  | case1 => simp [b64Encode]
  | case2 b1 => simp [b64Encode]
  | case3 b1 b2 => simp [b64Encode]
  | case4 b1 b2 b3 rest ih =>
    simp only [b64Encode, List.length_cons, Nat.add_mod_right]
    omega

theorem b64Encode_no_ws :
    ∀ bs : List Nat, (∀ b ∈ bs, b < 256) →
      (b64Encode bs).filter (fun c => ! isB64Ws c) = b64Encode bs := by
  intro bs
  induction bs using b64Encode.induct with
  | case1 => intro _; rfl
  | case2 b1 =>
    intro h
    have hb : b1 < 256 := h b1 (by simp)
    simp [b64Encode, List.filter_cons, isB64Ws_b64Char _ (by omega : b1 / 4 < 64),
      isB64Ws_b64Char _ (by omega : b1 % 4 * 16 < 64), isB64Ws_pad]
  | case3 b1 b2 =>
    intro h
    have hb1 : b1 < 256 := h b1 (by simp)
    have hb2 : b2 < 256 := h b2 (by simp)
    simp [b64Encode, List.filter_cons, isB64Ws_b64Char _ (by omega : b1 / 4 < 64),
      isB64Ws_b64Char _ (by omega : b1 % 4 * 16 + b2 / 16 < 64),
      isB64Ws_b64Char _ (by omega : b2 % 16 * 4 < 64), isB64Ws_pad]
  | case4 b1 b2 b3 rest ih =>
    intro h
    have hb1 : b1 < 256 := h b1 (by simp)
    have hb2 : b2 < 256 := h b2 (by simp)
    have hb3 : b3 < 256 := h b3 (by simp)
    simp [b64Encode, List.filter_cons, isB64Ws_b64Char _ (by omega : b1 / 4 < 64),
      isB64Ws_b64Char _ (by omega : b1 % 4 * 16 + b2 / 16 < 64),
      isB64Ws_b64Char _ (by omega : b2 % 16 * 4 + b3 / 64 < 64),
      isB64Ws_b64Char _ (by omega : b3 % 64 < 64),
      ih (fun x hx => h x (by simp [hx]))]

theorem stripPadRev_pad_pad (ys : List Char) : stripPadRev ('=' :: '=' :: ys) = ys := rfl

theorem stripPadRev_pad_ne (b : Char) (ys : List Char) (hb : b ≠ '=') :
    stripPadRev ('=' :: b :: ys) = b :: ys := by
  unfold stripPadRev
  split
  · rename_i h
    injection h with h1 h2
    injection h2 with h2a h2b
    exact absurd h2a hb
  · rename_i h
    injection h with h1 h2
    rw [h2]
  · rename_i h1 h2
    exact absurd rfl (h2 (b :: ys))

theorem stripPadRev_ne (a : Char) (rest : List Char) (ha : a ≠ '=') :
    stripPadRev (a :: rest) = a :: rest := by
  unfold stripPadRev
  split
  · rename_i h
    injection h with h1 h2
    exact absurd h1 ha
  · rename_i h
    injection h with h1 h2
    exact absurd h1 ha
  · rfl

theorem stripPadRev_append (a b : Char) (ys t : List Char) :
    stripPadRev (a :: b :: ys ++ t) = stripPadRev (a :: b :: ys) ++ t := by
  by_cases ha : a = '='
  · by_cases hb : b = '='
    · subst ha hb
      rw [stripPadRev_pad_pad, List.cons_append, List.cons_append, stripPadRev_pad_pad]
    · subst ha
      rw [stripPadRev_pad_ne b ys hb, List.cons_append, List.cons_append,
        stripPadRev_pad_ne b (ys ++ t) hb]
  · rw [stripPadRev_ne a (b :: ys) ha, List.cons_append,
      stripPadRev_ne a (b :: ys ++ t) ha]

theorem b64StripPad_chunk (c1 c2 c3 c4 : Char) (x : List Char)
    (h4 : c4 ≠ '=') (hx : x.length % 4 = 0) :
    b64StripPad (c1 :: c2 :: c3 :: c4 :: x) = c1 :: c2 :: c3 :: c4 :: b64StripPad x := by
  have hlen : (c1 :: c2 :: c3 :: c4 :: x).length % 4 = 0 := by
    simp only [List.length_cons]
    omega
  rcases hxr : x.reverse with _ | ⟨a, bs⟩
  · have hxe : x = [] := by
      have := congrArg List.reverse hxr
      simpa using this
    subst hxe
    simp only [b64StripPad, hlen, if_pos, List.length_nil, Nat.zero_mod, List.reverse_nil]
    have h1 : (c1 :: c2 :: c3 :: c4 :: ([] : List Char)).reverse = c4 :: [c3, c2, c1] := by rfl
    rw [h1, stripPadRev_ne c4 [c3, c2, c1] h4]
    rfl
  · rcases bs with _ | ⟨b, ys⟩
    · have : x.length = 1 := by
        have := congrArg List.length hxr
        simpa using this
      omega
    · have h1 : (c1 :: c2 :: c3 :: c4 :: x).reverse = a :: b :: ys ++ [c4, c3, c2, c1] := by
        rw [show c1 :: c2 :: c3 :: c4 :: x = [c1, c2, c3, c4] ++ x from rfl,
          List.reverse_append, hxr]
        rfl
      simp only [b64StripPad, hlen, if_pos, hx]
      rw [h1, stripPadRev_append, List.reverse_append, hxr]
      rfl

theorem b64Sextets_lt :
    ∀ bs : List Nat, (∀ b ∈ bs, b < 256) → ∀ n ∈ b64Sextets bs, n < 64 := by
  intro bs
  induction bs using b64Sextets.induct with
  | case1 => intro _ n hn; simp [b64Sextets] at hn
  | case2 b1 =>
    intro h n hn
    have hb : b1 < 256 := h b1 (by simp)
    simp [b64Sextets] at hn
    rcases hn with h1 | h1 <;> omega
  | case3 b1 b2 =>
    intro h n hn
    have hb1 : b1 < 256 := h b1 (by simp)
    have hb2 : b2 < 256 := h b2 (by simp)
    simp [b64Sextets] at hn
    rcases hn with h1 | h1 | h1 <;> omega
  | case4 b1 b2 b3 rest ih =>
    intro h n hn
    have hb1 : b1 < 256 := h b1 (by simp)
    have hb2 : b2 < 256 := h b2 (by simp)
    have hb3 : b3 < 256 := h b3 (by simp)
    simp only [b64Sextets, List.mem_cons] at hn
    rcases hn with h1 | h1 | h1 | h1 | h1
    · omega
    · omega
    · omega
    · omega
    · exact ih (fun x hx => h x (by simp [hx])) n h1

theorem b64StripPad_b64Encode :
    ∀ bs : List Nat, (∀ b ∈ bs, b < 256) →
      b64StripPad (b64Encode bs) = (b64Sextets bs).map b64Char := by
  intro bs
  induction bs using b64Encode.induct with
  | case1 => intro _; rfl
  | case2 b1 =>
    intro h
    have hb : b1 < 256 := h b1 (by simp)
    have h2 : b1 % 4 * 16 < 64 := by omega
    simp only [b64Encode, b64Sextets, List.map_cons, List.map_nil]
    simp only [b64StripPad, List.length_cons, List.length_nil]
    norm_num
    exact stripPadRev_pad_pad _
  | case3 b1 b2 =>
    intro h
    have hb1 : b1 < 256 := h b1 (by simp)
    have hb2 : b2 < 256 := h b2 (by simp)
    have h3 : b2 % 16 * 4 < 64 := by omega
    simp only [b64Encode, b64Sextets, List.map_cons, List.map_nil]
    simp only [b64StripPad, List.length_cons, List.length_nil]
    norm_num
    exact stripPadRev_pad_ne _ _ (b64Char_ne_eq _ h3)
  | case4 b1 b2 b3 rest ih =>
    intro h
    have hb1 : b1 < 256 := h b1 (by simp)
    have hb2 : b2 < 256 := h b2 (by simp)
    have hb3 : b3 < 256 := h b3 (by simp)
    have hrest : ∀ b ∈ rest, b < 256 := fun x hx => h x (by simp [hx])
    have h4 : b3 % 64 < 64 := by omega
    simp only [b64Encode, b64Sextets, List.map_cons]
    rw [b64StripPad_chunk _ _ _ _ _ (b64Char_ne_eq _ h4) (b64Encode_length_mod rest),
      ih hrest]

theorem mapM_b64Val_map_b64Char :
    ∀ ns : List Nat, (∀ n ∈ ns, n < 64) →
      (ns.map b64Char).mapM b64Val = some ns := by
  intro ns
  induction ns with
  | nil => intro _; rfl
  | cons n rest ih =>
    intro h
    have hn : n < 64 := h n (by simp)
    rw [List.map_cons, List.mapM_cons, b64Val_b64Char n hn,
      ih (fun x hx => h x (by simp [hx]))]
    rfl

theorem b64Assemble_b64Sextets :
    ∀ bs : List Nat, (∀ b ∈ bs, b < 256) → b64Assemble (b64Sextets bs) = some bs := by
  intro bs
  induction bs using b64Sextets.induct with
  | case1 => intro _; rfl
  | case2 b1 =>
    intro h
    have hb : b1 < 256 := h b1 (by simp)
    simp only [b64Sextets, b64Assemble]
    congr 1
    have : b1 / 4 * 4 + b1 % 4 * 16 / 16 = b1 := by omega
    rw [this]
  | case3 b1 b2 =>
    intro h
    have hb1 : b1 < 256 := h b1 (by simp)
    have hb2 : b2 < 256 := h b2 (by simp)
    simp only [b64Sextets, b64Assemble]
    congr 1
    have e1 : b1 / 4 * 4 + (b1 % 4 * 16 + b2 / 16) / 16 = b1 := by omega
    have e2 : (b1 % 4 * 16 + b2 / 16) % 16 * 16 + b2 % 16 * 4 / 4 = b2 := by omega
    rw [e1, e2]
  | case4 b1 b2 b3 rest ih =>
    intro h
    have hb1 : b1 < 256 := h b1 (by simp)
    have hb2 : b2 < 256 := h b2 (by simp)
    have hb3 : b3 < 256 := h b3 (by simp)
    simp only [b64Sextets, b64Assemble, ih (fun x hx => h x (by simp [hx]))]
    simp only [Option.map]
    congr 1
    have e1 : b1 / 4 * 4 + (b1 % 4 * 16 + b2 / 16) / 16 = b1 := by omega
    have e2 : (b1 % 4 * 16 + b2 / 16) % 16 * 16 + (b2 % 16 * 4 + b3 / 64) / 4 = b2 := by omega
    have e3 : (b2 % 16 * 4 + b3 / 64) % 4 * 64 + b3 % 64 = b3 := by omega
    rw [e1, e2, e3]

theorem atobModel_b64Encode (bs : List Nat) (h : ∀ b ∈ bs, b < 256) :
    atobModel (b64Encode bs) = some bs := by
  unfold atobModel
  rw [b64Encode_no_ws bs h, b64StripPad_b64Encode bs h,
    mapM_b64Val_map_b64Char _ (b64Sextets_lt bs h), Option.some_bind,
    b64Assemble_b64Sextets bs h]

theorem utf8EncodeCp_lt (c : Nat) (hc : c < 1114112) : ∀ b ∈ utf8EncodeCp c, b < 256 := by
  intro b hb
  unfold utf8EncodeCp at hb
  by_cases h1 : c < 128
  · rw [if_pos h1] at hb
    rw [List.mem_singleton] at hb
    omega
  · rw [if_neg h1] at hb
    by_cases h2 : c < 2048
    · rw [if_pos h2] at hb
      rcases List.mem_cons.1 hb with h | h
      · omega
      · rw [List.mem_singleton] at h
        omega
    · rw [if_neg h2] at hb
      by_cases h3 : c < 65536
      · rw [if_pos h3] at hb
        rcases List.mem_cons.1 hb with h | h
        · omega
        · rcases List.mem_cons.1 h with h4 | h4
          · omega
          · rw [List.mem_singleton] at h4
            omega
      · rw [if_neg h3] at hb
        rcases List.mem_cons.1 hb with h | h
        · omega
        · rcases List.mem_cons.1 h with h4 | h4
          · omega
          · rcases List.mem_cons.1 h4 with h5 | h5
            · omega
            · rw [List.mem_singleton] at h5
              omega

theorem utf8Encode_lt (cps : List Nat) (h : ∀ c ∈ cps, c < 1114112) :
    ∀ b ∈ utf8Encode cps, b < 256 := by
  intro b hb
  unfold utf8Encode at hb
  rw [List.mem_flatMap] at hb
  obtain ⟨c, hc, hbc⟩ := hb
  exact utf8EncodeCp_lt c (h c hc) b hbc

theorem utf8Decode_encodeCp (c : Nat) (hc : ValidCp c) (rest : List Nat) :
    utf8Decode (utf8EncodeCp c ++ rest) = (utf8Decode rest).map (fun cs => c :: cs) := by
  obtain ⟨hlt, hsur⟩ := hc
  by_cases h1 : c < 128
  · simp only [utf8EncodeCp, if_pos h1, List.cons_append, List.nil_append]
    rw [utf8Decode.eq_def]
    dsimp only
    rw [contCount, if_pos h1]
    dsimp only [takeAcc, utf8CpOk, List.drop]
    rw [if_pos rfl]
  · by_cases h2 : c < 2048
    · simp only [utf8EncodeCp, if_neg h1, if_pos h2, List.cons_append, List.nil_append]
      rw [utf8Decode.eq_def]
      dsimp only
      rw [contCount, if_neg (by omega : ¬ 192 + c / 64 < 128),
        if_neg (by omega : ¬ 192 + c / 64 < 194), if_pos (by omega : 192 + c / 64 < 224)]
      dsimp only [takeAcc]
      rw [if_pos (by omega : 128 ≤ 128 + c % 64 ∧ 128 + c % 64 < 192)]
      dsimp only [utf8CpOk, List.drop]
      have e : (192 + c / 64 - 192) * 64 + (128 + c % 64 - 128) = c := by omega
      rw [e]
      simp
    · by_cases h3 : c < 65536
      · simp only [utf8EncodeCp, if_neg h1, if_neg h2, if_pos h3, List.cons_append,
          List.nil_append]
        rw [utf8Decode.eq_def]
        dsimp only
        rw [contCount, if_neg (by omega : ¬ 224 + c / 4096 < 128),
          if_neg (by omega : ¬ 224 + c / 4096 < 194),
          if_neg (by omega : ¬ 224 + c / 4096 < 224),
          if_pos (by omega : 224 + c / 4096 < 240)]
        dsimp only [takeAcc]
        rw [if_pos (by omega : 128 ≤ 128 + c / 64 % 64 ∧ 128 + c / 64 % 64 < 192),
          if_pos (by omega : 128 ≤ 128 + c % 64 ∧ 128 + c % 64 < 192)]
        dsimp only [List.drop]
        have e : ((224 + c / 4096 - 224) * 64 + (128 + c / 64 % 64 - 128)) * 64 +
            (128 + c % 64 - 128) = c := by omega
        rw [e]
        rw [show utf8CpOk 2 c = true from by
          simp only [utf8CpOk]
          exact decide_eq_true (by omega)]
        simp
      · simp only [utf8EncodeCp, if_neg h1, if_neg h2, if_neg h3, List.cons_append,
          List.nil_append]
        rw [utf8Decode.eq_def]
        dsimp only
        rw [contCount, if_neg (by omega : ¬ 240 + c / 262144 < 128),
          if_neg (by omega : ¬ 240 + c / 262144 < 194),
          if_neg (by omega : ¬ 240 + c / 262144 < 224),
          if_neg (by omega : ¬ 240 + c / 262144 < 240),
          if_pos (by omega : 240 + c / 262144 < 245)]
        dsimp only [takeAcc]
        rw [if_pos (by omega : 128 ≤ 128 + c / 4096 % 64 ∧ 128 + c / 4096 % 64 < 192),
          if_pos (by omega : 128 ≤ 128 + c / 64 % 64 ∧ 128 + c / 64 % 64 < 192),
          if_pos (by omega : 128 ≤ 128 + c % 64 ∧ 128 + c % 64 < 192)]
        dsimp only [List.drop]
        have e : (((240 + c / 262144 - 240) * 64 + (128 + c / 4096 % 64 - 128)) * 64 +
            (128 + c / 64 % 64 - 128)) * 64 + (128 + c % 64 - 128) = c := by omega
        rw [e]
        rw [show utf8CpOk 3 c = true from by
          simp only [utf8CpOk]
          exact decide_eq_true (by omega)]
        simp

theorem utf8Decode_utf8Encode (cps : List Nat) (h : ∀ c ∈ cps, ValidCp c) :
    utf8Decode (utf8Encode cps) = some cps := by
  induction cps with
  | nil =>
    rw [show utf8Encode [] = [] from rfl, utf8Decode.eq_def]
  | cons c rest ih =>
    have hc : ValidCp c := h c (by simp)
    have hrest : ∀ x ∈ rest, ValidCp x := fun x hx => h x (by simp [hx])
    have : utf8Encode (c :: rest) = utf8EncodeCp c ++ utf8Encode rest := by
      simp [utf8Encode]
    rw [this, utf8Decode_encodeCp c hc, ih hrest]
    rfl

theorem decodeBase64_encodePayload (cps : List Nat) (h : ∀ c ∈ cps, ValidCp c) :
    decodeBase64 (encodePayload cps) = cps := by
  have hbytes : ∀ b ∈ utf8Encode cps, b < 256 :=
    utf8Encode_lt cps (fun c hc => (h c hc).1)
  unfold decodeBase64 encodePayload
  rw [atobModel_b64Encode _ hbytes, Option.some_bind, percentToBytes_percentEncode _ hbytes,
    Option.some_bind, utf8Decode_utf8Encode cps h, Option.getD_some]

theorem hasTag_hAppend (t : String) : ∀ (a b : HtmlList),
    hasTagList t (hAppend a b) = (hasTagList t a || hasTagList t b)
  | .nil, b => by simp [hAppend, hasTagList]
  | .cons h rest, b => by
    simp [hAppend, hasTagList, hasTag_hAppend t rest b, Bool.or_assoc]

mutual
theorem sanitizeNode_no_script (n : Html) : hasTagList "script" (sanitizeNode n) = false := by
  match n with
  | .text s => simp [sanitizeNode, hasTagList, hasTagNode]
  | .el tag attrs children =>
    rw [sanitizeNode]
    by_cases hden : tag ∈ forbidTags ∨ tag ∉ allowedTags
    · rw [if_pos hden]
      by_cases hcon : tag ∈ forbidContentTags
      · rw [if_pos hcon]
        simp [hasTagList]
      · rw [if_neg hcon]
        exact sanitizeList_no_script children
    · rw [if_neg hden]
      push_neg at hden
      have htag : tag ≠ "script" := by
        intro h
        subst h
        exact absurd (by decide : ("script" : String) ∈ forbidTags) hden.1
      simp [hasTagList, hasTagNode, htag, sanitizeList_no_script children]
theorem sanitizeList_no_script (f : HtmlList) : hasTagList "script" (sanitizeList f) = false := by
  match f with
  | .nil => simp [sanitizeList, hasTagList]
  | .cons h rest =>
    rw [sanitizeList, hasTag_hAppend]
    simp [sanitizeNode_no_script h, sanitizeList_no_script rest]
end

theorem lookup_filter_name (a : String) (p : String → Bool) (hp : p a = true) :
    ∀ l : List (String × List Char),
      (l.filter (fun q => p q.1)).lookup a = l.lookup a := by
  intro l
  induction l with
  | nil => rfl
  | cons kv t ih =>
    obtain ⟨k, v⟩ := kv
    by_cases hk : a = k
    · subst hk
      rw [List.filter_cons_of_pos (by simpa using hp)]
      simp [List.lookup]
    · by_cases hpk : p k = true
      · rw [List.filter_cons_of_pos (by simpa using hpk)]
        simp only [List.lookup]
        rw [show (a == k) = false from by simpa using hk]
        simpa using ih
      · rw [List.filter_cons_of_neg (by simpa using hpk)]
        simp only [List.lookup]
        rw [show (a == k) = false from by simpa using hk]
        exact ih

theorem lookup_append_right (a : String) (v : List Char) :
    ∀ l : List (String × List Char), (∀ q ∈ l, q.1 ≠ a) →
      (l ++ [(a, v)]).lookup a = some v := by
  intro l
  induction l with
  | nil =>
    intro _
    simp [List.lookup]
  | cons kv t ih =>
    intro h
    obtain ⟨k, w⟩ := kv
    have hk : k ≠ a := h (k, w) (by simp)
    simp only [List.cons_append, List.lookup]
    rw [show (a == k) = false from by simp [Ne.symm hk]]
    exact ih (fun q hq => h q (by simp [hq]))

theorem indexOf_lt_length (c : Char) :
    ∀ (l : List Char) (i : Nat), l.indexOf? c = some i → i < l.length := by
  intro l
  induction l with
  | nil => intro i h; simp [List.indexOf?] at h
  | cons x xs ih =>
    intro i h
    rw [List.indexOf?, List.findIdx?_cons] at h
    by_cases hx : (x == c) = true
    · rw [hx] at h
      simp at h
      subst h
      simp
    · rw [show (x == c) = false from by simpa using hx] at h
      simp only [Nat.zero_add, List.findIdx?_succ] at h
      rcases Option.map_eq_some'.1 h with ⟨j, hj, rfl⟩
      have := ih j (by rw [List.indexOf?]; exact hj)
      simp only [List.length_cons]
      omega

theorem b64Val_lt (c : Char) (n : Nat) (h : b64Val c = some n) : n < 64 :=
  indexOf_lt_length c b64Alphabet n h

theorem mapM_b64Val_lt :
    ∀ (l : List Char) (ns : List Nat), l.mapM b64Val = some ns → ∀ n ∈ ns, n < 64 := by
  intro l
  induction l with
  | nil =>
    intro ns h n hn
    simp only [List.mapM_nil, Option.pure_def, Option.some.injEq] at h
    subst h
    simp at hn
  | cons c t ih =>
    intro ns h n hn
    rw [List.mapM_cons] at h
    rcases hv : b64Val c with _ | v
    · rw [hv] at h
      simp at h
    · rw [hv] at h
      rcases ht : t.mapM b64Val with _ | vs
      · rw [ht] at h
        simp at h
      · rw [ht] at h
        simp at h
        subst h
        rcases List.mem_cons.1 hn with rfl | hmem
        · exact b64Val_lt c n hv
        · exact ih vs ht n hmem

theorem b64Assemble_lt :
    ∀ (ss : List Nat) (bs : List Nat), (∀ s ∈ ss, s < 64) →
      b64Assemble ss = some bs → ∀ b ∈ bs, b < 256 := by
  intro ss
  induction ss using b64Assemble.induct with
  | case1 =>
    intro bs _ h b hb
    simp [b64Assemble] at h
    subst h
    simp at hb
  | case2 s1 =>
    intro bs _ h
    simp [b64Assemble] at h
  | case3 s1 s2 =>
    intro bs hs h b hb
    have h1 : s1 < 64 := hs s1 (by simp)
    have h2 : s2 < 64 := hs s2 (by simp)
    simp [b64Assemble] at h
    subst h
    simp at hb
    omega
  | case4 s1 s2 s3 =>
    intro bs hs h b hb
    have h1 : s1 < 64 := hs s1 (by simp)
    have h2 : s2 < 64 := hs s2 (by simp)
    have h3 : s3 < 64 := hs s3 (by simp)
    simp [b64Assemble] at h
    subst h
    simp at hb
    omega
  | case5 s1 s2 s3 s4 rest ih =>
    intro bs hs h b hb
    have h1 : s1 < 64 := hs s1 (by simp)
    have h2 : s2 < 64 := hs s2 (by simp)
    have h3 : s3 < 64 := hs s3 (by simp)
    have h4 : s4 < 64 := hs s4 (by simp)
    rw [b64Assemble] at h
    rcases hr : b64Assemble rest with _ | tail
    · rw [hr] at h
      simp at h
    · rw [hr] at h
      simp at h
      subst h
      rcases List.mem_cons.1 hb with rfl | hb2
      · omega
      · rcases List.mem_cons.1 hb2 with rfl | hb3
        · omega
        · rcases List.mem_cons.1 hb3 with rfl | hb4
          · omega
          · exact ih tail (fun x hx => hs x (by simp [hx])) hr b hb4

theorem atobModel_lt (v : List Char) (bs : List Nat) (h : atobModel v = some bs) :
    ∀ b ∈ bs, b < 256 := by
  unfold atobModel at h
  rcases hm : (b64StripPad (v.filter (fun c => ! isB64Ws c))).mapM b64Val with _ | ss
  · rw [hm] at h
    simp at h
  · rw [hm] at h
    rw [Option.some_bind] at h
    exact b64Assemble_lt ss bs (mapM_b64Val_lt _ ss hm) h

theorem lookup_filter_allowed (a : String) (ha : a ∈ allowedAttrs) :
    ∀ l : List (String × List Char),
      (l.filter (fun p => p.1 ∈ allowedAttrs)).lookup a = l.lookup a := by
  intro l
  induction l with
  | nil => rfl
  | cons kv t ih =>
    obtain ⟨k, v⟩ := kv
    by_cases hk : a = k
    · subst hk
      rw [List.filter_cons_of_pos (by simpa using ha)]
      simp [List.lookup]
    · by_cases hpk : k ∈ allowedAttrs
      · rw [List.filter_cons_of_pos (by simpa using hpk)]
        simp only [List.lookup]
        rw [show (a == k) = false from by simpa using hk]
        simpa using ih
      · rw [List.filter_cons_of_neg (by simpa using hpk)]
        simp only [List.lookup]
        rw [show (a == k) = false from by simpa using hk]
        exact ih

/-- C2: the sanitization gate never lets a script element through (for any
input tree, with or without custom attributes elsewhere), and on every
allowed element it keeps each allow-listed custom annotation attribute with
its value intact. -/
theorem claim_C2_sanitizer_safety :
    (∀ f : HtmlList, hasTagList "script" (sanitizeList f) = false) ∧
    (∀ (tag : String) (attrs : List (String × List Char)) (children : HtmlList),
      tag ∈ allowedTags → tag ∉ forbidTags →
      sanitizeNode (.el tag attrs children) =
        .cons (.el tag (attrs.filter (fun p => p.1 ∈ allowedAttrs))
          (sanitizeList children)) .nil ∧
      ∀ a ∈ addAttrList,
        (attrs.filter (fun p => p.1 ∈ allowedAttrs)).lookup a = attrs.lookup a) := by
  constructor
  · exact sanitizeList_no_script
  · intro tag attrs children hallow hforbid
    constructor
    · rw [sanitizeNode, if_neg]
      push_neg
      exact ⟨hforbid, hallow⟩
    · intro a hadd
      have ha : a ∈ allowedAttrs := by
        have : ∀ x ∈ addAttrList, x ∈ allowedAttrs := by decide
        exact this a hadd
      exact lookup_filter_allowed a ha attrs

/-- Witness for C2 at a concrete input: a div carrying a source-line marker
and a non-allow-listed handler attribute is kept with the marker intact. -/
theorem claim_C2_sanitizer_safety_witness :
    ("div" : String) ∈ allowedTags ∧ ("div" : String) ∉ forbidTags ∧
    ("data-source-line" : String) ∈ addAttrList ∧
    sanitizeNode (.el "div" [("data-source-line", ['3']), ("onclick", "alert".data)] .nil) =
      .cons (.el "div" [("data-source-line", ['3'])] .nil) .nil ∧
    ([("data-source-line", ['3']), ("onclick", "alert".data)].filter
        (fun p => p.1 ∈ allowedAttrs)).lookup "data-source-line" = some ['3'] := by
  refine ⟨by decide, by decide, by decide, ?_, ?_⟩
  · have h := (claim_C2_sanitizer_safety.2 "div"
      [("data-source-line", ['3']), ("onclick", "alert".data)] .nil
      (by decide) (by decide)).1
    rw [h]
    decide
  · have h := (claim_C2_sanitizer_safety.2 "div"
      [("data-source-line", ['3']), ("onclick", "alert".data)] .nil
      (by decide) (by decide)).2 "data-source-line" (by decide)
    rw [h]
    decide

/-- C1: a fenced code block whose info string is `mermaid` renders as a
placeholder div whose `data-mermaid` attribute survives sanitization and
decodes back to the fence content exactly. -/
theorem claim_C1_mermaid_payload_roundtrip (info : List Char) (content : List Nat)
    (lineAttrs : List (String × List Char))
    (hinfo : firstWord info = "mermaid".data)
    (hcontent : ∀ c ∈ content, ValidCp c)
    (hline : ∀ p ∈ lineAttrs,
      p.1 = "data-source-line" ∨ p.1 = "data-source-line-end") :
    ∃ node fa,
      fenceRule info content lineAttrs = some node ∧
      sanitizeNode node = .cons (.el "div" fa .nil) .nil ∧
      fa.lookup "data-mermaid" = some (encodePayload content) ∧
      decodeBase64 (encodePayload content) = content := by
  have hne : ∀ q ∈ ("class", "omv-mermaid".data) :: lineAttrs,
      q.1 ≠ "data-mermaid" := by
    intro q hq
    rcases List.mem_cons.1 hq with rfl | hmem
    · decide
    · rcases hline q hmem with h | h <;> rw [h] <;> decide
  have hattrs : (([("class", "omv-mermaid".data)] ++ lineAttrs ++
      [("data-mermaid", encodePayload content)]) :
        List (String × List Char)).lookup "data-mermaid" =
      some (encodePayload content) := by
    have hshape : ([("class", "omv-mermaid".data)] ++ lineAttrs ++
        [("data-mermaid", encodePayload content)]) =
        ((("class", "omv-mermaid".data) :: lineAttrs) ++
          [("data-mermaid", encodePayload content)]) := by
      simp
    rw [hshape]
    exact lookup_append_right "data-mermaid" (encodePayload content) _ hne
  refine ⟨.el "div" ([("class", "omv-mermaid".data)] ++ lineAttrs ++
      [("data-mermaid", encodePayload content)]) .nil,
    ([("class", "omv-mermaid".data)] ++ lineAttrs ++
      [("data-mermaid", encodePayload content)]).filter (fun p => p.1 ∈ allowedAttrs),
    ?_, ?_, ?_, decodeBase64_encodePayload content hcontent⟩
  · rw [fenceRule, if_pos hinfo]
  · rw [sanitizeNode, if_neg (by decide)]
    rfl
  · rw [lookup_filter_allowed _ (by decide)]
    exact hattrs

/-- Witness for C1 at the spec example: the fence
mermaid / graph TD; A-->B; decodes back exactly. -/
theorem claim_C1_mermaid_payload_roundtrip_witness :
    firstWord "mermaid".data = "mermaid".data ∧
    (∀ c ∈ strCps "graph TD; A-->B;", ValidCp c) ∧
    (∃ node fa,
      fenceRule "mermaid".data (strCps "graph TD; A-->B;")
        [("data-source-line", ['0'])] = some node ∧
      sanitizeNode node = .cons (.el "div" fa .nil) .nil ∧
      fa.lookup "data-mermaid" = some (encodePayload (strCps "graph TD; A-->B;")) ∧
      decodeBase64 (encodePayload (strCps "graph TD; A-->B;")) =
        strCps "graph TD; A-->B;") := by
  refine ⟨by decide, by decide, ?_⟩
  exact claim_C1_mermaid_payload_roundtrip "mermaid".data (strCps "graph TD; A-->B;")
    [("data-source-line", ['0'])] (by decide) (by decide) (by decide)

/-- C6: when math (respectively diagrams) are disabled, a placeholder whose
payload attribute encodes a source text is replaced by exactly that decoded
plain text, with a single text node as content and no typeset markup. -/
theorem claim_C6_disabled_placeholder_text (n : Html) (src : List Nat)
    (hv : ∀ c ∈ src, ValidCp c) :
    (getAttr n "data-math" = some (encodePayload src) →
      disableMathNode n = setTextContent n src ∧
      textContentHtml (disableMathNode n) = src) ∧
    (getAttr n "data-mermaid" = some (encodePayload src) →
      disableMermaidNode n = setTextContent n src ∧
      textContentHtml (disableMermaidNode n) = src) := by
  have htc : textContentHtml (setTextContent n src) = src := by
    match n with
    | .text _ => rfl
    | .el t a c =>
      rw [setTextContent]
      rw [textContentHtml, textContentList, textContentHtml, textContentList]
      simp
  constructor
  · intro h
    have he : disableMathNode n = setTextContent n src := by
      rw [disableMathNode, h, Option.getD_some, decodeBase64_encodePayload src hv]
    exact ⟨he, by rw [he, htc]⟩
  · intro h
    have he : disableMermaidNode n = setTextContent n src := by
      rw [disableMermaidNode, h, Option.getD_some, decodeBase64_encodePayload src hv]
    exact ⟨he, by rw [he, htc]⟩

/-- Witness for C6 at the spec scenario: a math-disabled inline placeholder
with payload a^2+b^2=c^2 renders exactly that text. -/
theorem claim_C6_disabled_placeholder_text_witness :
    (∀ c ∈ strCps "a^2+b^2=c^2", ValidCp c) ∧
    getAttr (.el "span" [("class", "omv-math-inline".data),
        ("data-math", encodePayload (strCps "a^2+b^2=c^2"))] .nil) "data-math" =
      some (encodePayload (strCps "a^2+b^2=c^2")) ∧
    textContentHtml (disableMathNode (.el "span" [("class", "omv-math-inline".data),
        ("data-math", encodePayload (strCps "a^2+b^2=c^2"))] .nil)) =
      strCps "a^2+b^2=c^2" := by
  refine ⟨by decide, by decide, ?_⟩
  exact ((claim_C6_disabled_placeholder_text
    (.el "span" [("class", "omv-math-inline".data),
      ("data-math", encodePayload (strCps "a^2+b^2=c^2"))] .nil)
    (strCps "a^2+b^2=c^2") (by decide)).1 (by decide)).2

/-- C10: `decodeBase64` is total with the empty string as its failure value:
whatever the input, it returns the empty string when `atob` rejects the input
or the decoded bytes are not valid UTF-8, and the decoded text otherwise; no
input makes it throw. -/
theorem claim_C10_decodeBase64_total (v : List Char) :
    (atobModel v = none → decodeBase64 v = []) ∧
    (∀ bs, atobModel v = some bs → utf8Decode bs = none → decodeBase64 v = []) ∧
    (∀ bs cps, atobModel v = some bs → utf8Decode bs = some cps →
      decodeBase64 v = cps) := by
  refine ⟨?_, ?_, ?_⟩
  · intro h
    rw [decodeBase64, h]
    rfl
  · intro bs h hu
    rw [decodeBase64, h, Option.some_bind,
      percentToBytes_percentEncode bs (atobModel_lt v bs h), Option.some_bind, hu]
    rfl
  · intro bs cps h hu
    rw [decodeBase64, h, Option.some_bind,
      percentToBytes_percentEncode bs (atobModel_lt v bs h), Option.some_bind, hu,
      Option.getD_some]

/-- Witness for C10 at two corrupted payloads: a non-base64 input and a
base64 input whose bytes are not UTF-8 both decode to the empty string. -/
theorem claim_C10_decodeBase64_total_witness :
    atobModel "%!".data = none ∧ decodeBase64 "%!".data = [] ∧
    atobModel "/w==".data = some [255] ∧ utf8Decode [255] = none ∧
    decodeBase64 "/w==".data = [] := by
  have h255 : utf8Decode [255] = none := by
    rw [utf8Decode.eq_def]
    rfl
  refine ⟨by decide, (claim_C10_decodeBase64_total _).1 (by decide), by decide, h255,
    (claim_C10_decodeBase64_total _).2.1 [255] (by decide) h255⟩

/-- C3: when the bracketing entry prev has a known end line and the target
line lies in [prev.line, prev.endLine), the mapper interpolates linearly
across prev's own pixel height; strictly inside the block (and with positive
height) the result is strictly between pixelTop and pixelTop + pixelHeight,
not clamped to either endpoint. -/
theorem claim_C3_block_interpolation (m0 : LineMarkerMetric)
    (rest : List LineMarkerMetric) (line : Int) (prev : LineMarkerMetric)
    (next : Option LineMarkerMetric) (e : Int)
    (hbr : bracketGo line m0 rest = (prev, next))
    (he : prev.endLine = some e) (he0 : e ≠ 0)
    (hlt : prev.line < e) (hlo : prev.line ≤ line) (hhi : line < e) :
    estimateFromMetrics (m0 :: rest) line =
      some (prev.top + ((line - prev.line : ℤ) : ℚ) /
        max 1 ((e - prev.line : ℤ) : ℚ) * prev.height) ∧
    (prev.line < line → 0 < prev.height →
      prev.top < prev.top + ((line - prev.line : ℤ) : ℚ) /
          max 1 ((e - prev.line : ℤ) : ℚ) * prev.height ∧
        prev.top + ((line - prev.line : ℤ) : ℚ) /
          max 1 ((e - prev.line : ℤ) : ℚ) * prev.height <
          prev.top + prev.height) := by
  constructor
  · rw [estimateFromMetrics, hbr]
    dsimp only
    rw [estValue, he]
    dsimp only
    rw [if_pos ⟨he0, hlt, hlo, hhi⟩]
  · intro hstrict hh
    have hden : ((1 : ℚ) : ℚ) ≤ ((e - prev.line : ℤ) : ℚ) := by
      have : (1 : ℤ) ≤ e - prev.line := by omega
      exact_mod_cast this
    have hmax : max 1 ((e - prev.line : ℤ) : ℚ) = ((e - prev.line : ℤ) : ℚ) :=
      max_eq_right hden
    have hnum_pos : (0 : ℚ) < ((line - prev.line : ℤ) : ℚ) := by
      have : (0 : ℤ) < line - prev.line := by omega
      exact_mod_cast this
    have hnum_lt : ((line - prev.line : ℤ) : ℚ) < ((e - prev.line : ℤ) : ℚ) := by
      have : line - prev.line < e - prev.line := by omega
      exact_mod_cast this
    have hden_pos : (0 : ℚ) < ((e - prev.line : ℤ) : ℚ) := lt_of_lt_of_le one_pos hden
    have hr_pos : 0 < ((line - prev.line : ℤ) : ℚ) / max 1 ((e - prev.line : ℤ) : ℚ) := by
      rw [hmax]
      exact div_pos hnum_pos hden_pos
    have hr_lt : ((line - prev.line : ℤ) : ℚ) / max 1 ((e - prev.line : ℤ) : ℚ) < 1 := by
      rw [hmax]
      exact (div_lt_one hden_pos).2 hnum_lt
    constructor
    · have := mul_pos hr_pos hh
      linarith
    · have := mul_lt_of_lt_one_left hh hr_lt
      linarith

/-- Witness for C3 at the spec example: a block spanning lines [10, 14) at
pixelTop 100 and height 40, queried at line 12, yields 120, strictly between
100 and 140. -/
theorem claim_C3_block_interpolation_witness :
    estimateFromMetrics [⟨10, some 14, 100, 40⟩] 12 = some 120 ∧
    (100 : ℚ) < 120 ∧ (120 : ℚ) < 140 := by
  have h := claim_C3_block_interpolation ⟨10, some 14, 100, 40⟩ [] 12
    ⟨10, some 14, 100, 40⟩ none 14 rfl rfl (by decide) (by decide) (by decide) (by decide)
  have hval : (100 : ℚ) + ((12 - 10 : ℤ) : ℚ) / max 1 ((14 - 10 : ℤ) : ℚ) * 40 = 120 := by
    norm_num
  refine ⟨?_, by norm_num, by norm_num⟩
  rw [h.1]
  norm_num

/-- C4 as stated is false: the metric sequence consumed by interpolation is
re-sorted by pixelTop (then line), so when measured pixel tops disagree with
source-line order the index is not ordered by sourceLine; concretely, two
markers with lines 5 and 10 measured at tops 200 and 100 produce the metric
order [line 10, line 5]. -/
theorem claim_C4_counterexample :
    getMarkerMetrics [⟨0, some 5, none, 200, 10⟩, ⟨1, some 10, none, 100, 10⟩] =
      [⟨10, none, 100, 10⟩, ⟨5, none, 200, 10⟩] ∧
    ¬ (getMarkerMetrics [⟨0, some 5, none, 200, 10⟩,
        ⟨1, some 10, none, 100, 10⟩]).Pairwise (fun a b => a.line ≤ b.line) := by
  constructor
  · decide
  · decide

/-- C4 amended: the cached marker list is ordered by (sourceLine, then
document order); the metric sequence consumed by interpolation is ordered by
(pixelTop, then sourceLine), which coincides with sourceLine order exactly
when measured tops are monotone in source line. -/
theorem claim_C4_index_order (els : List MarkerEl) :
    (getMarkers els).Pairwise markerLE ∧
    (getMarkerMetrics els).Pairwise metricLE := by
  constructor
  · exact List.sorted_insertionSort markerLE _
  · exact List.sorted_insertionSort metricLE _

/-- C8 as stated is false: the zoom step always re-clamps the pan, and when
the scaled content fits inside the viewport the translate is centered, moving
the anchored content point; concretely, a 100x100 diagram in a 400x300
viewport zoomed by 2 at screen point (50,50) from scale 1, translate (0,0)
renders the anchored content point at x = 200, not 50. -/
theorem claim_C8_zoom_anchoring_counterexample :
    (zoomAt ⟨1, 0, 0, 1/5, 4, false⟩ 400 300 100 100 2 50 50).scale = 2 ∧
    (zoomAt ⟨1, 0, 0, 1/5, 4, false⟩ 400 300 100 100 2 50 50).tx +
      ((50 : ℚ) - 0) / 1 * 2 = 200 ∧
    ((200 : ℚ) ≠ 50) := by
  refine ⟨?_, ?_, by norm_num⟩
  · rw [zoomAt]
    rw [if_neg (by norm_num [zoomNextScale, clampQ])]
    norm_num [zoomNextScale, clampQ]
  · rw [zoomAt]
    rw [if_neg (by norm_num [zoomNextScale, clampQ])]
    norm_num [zoomNextScale, clampQ, clampPan, zoomRawTx, zoomRawTy]

/-- C8 amended: on a non-degenerate zoom step the new scale is the old scale
times the factor clamped to [minScale, maxScale], the recomputed pre-clamp
translate satisfies the anchor invariant ((anchor - translate) / scale is
unchanged), and whenever the pan clamp leaves that translate unchanged - in
particular whenever the scaled content exceeds the viewport and the translate
is in range - the content point under the anchor still renders at the anchor. -/
theorem claim_C8_zoom_anchoring (st : ViewerState) (vw vh nw nh factor localX localY : ℚ)
    (hs : 0 < st.scale) (hmin : 0 < st.minScale) (hmm : st.minScale ≤ st.maxScale)
    (hexit : ¬ |zoomNextScale st factor - st.scale| < 1 / 10000) :
    (zoomAt st vw vh nw nh factor localX localY).scale = zoomNextScale st factor ∧
    (localX - zoomRawTx st factor localX) / zoomNextScale st factor =
      (localX - st.tx) / st.scale ∧
    (localY - zoomRawTy st factor localY) / zoomNextScale st factor =
      (localY - st.ty) / st.scale ∧
    (clampPan (zoomRawTx st factor localX) (zoomRawTy st factor localY)
        vw vh nw nh (zoomNextScale st factor) =
        (zoomRawTx st factor localX, zoomRawTy st factor localY) →
      (zoomAt st vw vh nw nh factor localX localY).tx +
        (localX - st.tx) / st.scale * (zoomAt st vw vh nw nh factor localX localY).scale =
        localX ∧
      (zoomAt st vw vh nw nh factor localX localY).ty +
        (localY - st.ty) / st.scale * (zoomAt st vw vh nw nh factor localX localY).scale =
        localY) := by
  have hnext : 0 < zoomNextScale st factor := by
    have h1 : st.minScale ≤ max st.minScale (st.scale * factor) := le_max_left _ _
    have h2 : st.minScale ≤ min st.maxScale (max st.minScale (st.scale * factor)) :=
      le_min hmm h1
    exact lt_of_lt_of_le hmin h2
  have hneq : zoomNextScale st factor ≠ 0 := ne_of_gt hnext
  have hx : (localX - zoomRawTx st factor localX) / zoomNextScale st factor =
      (localX - st.tx) / st.scale := by
    rw [zoomRawTx]
    field_simp
    ring
  have hy : (localY - zoomRawTy st factor localY) / zoomNextScale st factor =
      (localY - st.ty) / st.scale := by
    rw [zoomRawTy]
    field_simp
    ring
  refine ⟨?_, hx, hy, ?_⟩
  · rw [zoomAt, if_neg hexit]
  · intro hclamp
    rw [zoomAt, if_neg hexit]
    dsimp only
    rw [hclamp]
    constructor
    · rw [zoomRawTx]
      ring
    · rw [zoomRawTy]
      ring

/-- Witness for C8 amended: a 1000x1000 diagram in a 400x300 viewport zoomed
by 2 at (50,50) from scale 1, translate (0,0): the clamp leaves the
recomputed translate (-50,-50) unchanged and the anchored point stays at
(50,50). -/
theorem claim_C8_zoom_anchoring_witness :
    (zoomAt ⟨1, 0, 0, 1/5, 4, false⟩ 400 300 1000 1000 2 50 50).scale = 2 ∧
    (zoomAt ⟨1, 0, 0, 1/5, 4, false⟩ 400 300 1000 1000 2 50 50).tx +
      ((50 : ℚ) - 0) / 1 * 2 = 50 ∧
    (zoomAt ⟨1, 0, 0, 1/5, 4, false⟩ 400 300 1000 1000 2 50 50).ty +
      ((50 : ℚ) - 0) / 1 * 2 = 50 := by
  have h := claim_C8_zoom_anchoring ⟨1, 0, 0, 1/5, 4, false⟩ 400 300 1000 1000 2 50 50
    (by norm_num) (by norm_num) (by norm_num)
    (by norm_num [zoomNextScale, clampQ])
  have h2 := h.2.2.2 (by
    norm_num [clampPan, zoomNextScale, clampQ, zoomRawTx, zoomRawTy])
  refine ⟨?_, ?_, ?_⟩
  · rw [h.1]
    norm_num [zoomNextScale, clampQ]
  · have := h2.1
    rw [h.1] at this
    norm_num [zoomNextScale, clampQ] at this ⊢
    convert this using 2
  · have := h2.2
    rw [h.1] at this
    norm_num [zoomNextScale, clampQ] at this ⊢
    convert this using 2

theorem takeWhile_all_append (p : Char → Bool) (d : Char) (hd : p d = false) :
    ∀ (e t : List Char), (∀ c ∈ e, p c = true) →
      (e ++ d :: t).takeWhile p = e ∧ (e ++ d :: t).dropWhile p = d :: t := by
  intro e
  induction e with
  | nil =>
    intro t _
    constructor
    · simp [List.takeWhile_cons, hd]
    · simp [List.dropWhile_cons, hd]
  | cons c e2 ih =>
    intro t h
    have hc : p c = true := h c (by simp)
    have := ih t (fun x hx => h x (by simp [hx]))
    constructor
    · simp only [List.cons_append, List.takeWhile_cons, hc, if_true]
      rw [this.1]
    · simp only [List.cons_append, List.dropWhile_cons, hc, if_true]
      exact this.2

theorem scanDouble_nil_eq : scanDouble [] = [] := by
  simp [scanDouble]

theorem scanDouble_cons_ne (c : Char) (rest : List Char) (hc : c ≠ '$') :
    scanDouble (c :: rest) = c :: scanDouble rest := by
  rw [scanDouble.eq_def]
  split
  · rename_i h
    simp at h
  · rename_i h
    injection h with h1 h2
    exact absurd h1 hc
  · rename_i hno heq
    injection heq with h1 h2
    subst h1
    subst h2
    rfl

theorem scanDouble_one_dollar (rest : List Char) (h : rest.head? ≠ some '$') :
    scanDouble ('$' :: rest) = '$' :: scanDouble rest := by
  match rest with
  | [] => simp [scanDouble]
  | c :: t =>
    have hc : c ≠ '$' := by
      intro he
      subst he
      simp at h
    rw [scanDouble.eq_def]
    split
    · rename_i hsh
      simp at hsh
    · rename_i hsh
      injection hsh with h1 h2
      injection h2 with h2a h2b
      exact absurd h2a hc
    · rename_i hsh
      injection hsh with h1 h2
      subst h1 h2
      rfl

theorem scanDouble_match (e q : List Char) (he : '$' ∉ e) (hne : e ≠ []) :
    scanDouble ('$' :: '$' :: (e ++ '$' :: '$' :: q)) =
      mathPlaceholder e ++ scanDouble q := by
  have hall : ∀ c ∈ e, (fun c => decide (c ≠ '$')) c = true := by
    intro c hc
    simp only [decide_eq_true_iff]
    intro hce
    exact he (hce ▸ hc)
  have htw := takeWhile_all_append (fun c => decide (c ≠ '$')) '$' (by simp)
    e ('$' :: q) hall
  rw [scanDouble.eq_def]
  split
  · rename_i hsh
    simp at hsh
  · rename_i hsh
    injection hsh with h1 h2
    injection h2 with h2a h2b
    subst h2b
    rw [htw.1, htw.2]
    rw [if_pos ⟨hne, rfl⟩]
    simp
  · rename_i hno heq
    injection heq with h1 h2
    exact absurd (hno (e ++ '$' :: '$' :: q) h1.symm h2.symm) (fun h => h)

theorem scanDouble_id (s : List Char) (hs : '$' ∉ s) : scanDouble s = s := by
  induction s with
  | nil => exact scanDouble_nil_eq
  | cons c t ih =>
    have hc : c ≠ '$' := fun h => hs (h ▸ List.mem_cons_self c t)
    rw [scanDouble_cons_ne c t hc, ih (fun h => hs (List.mem_cons_of_mem c h))]

theorem scanDouble_transparent (p s : List Char) (hp : '$' ∉ p) :
    scanDouble (p ++ s) = p ++ scanDouble s := by
  induction p with
  | nil => simp
  | cons c t ih =>
    have hc : c ≠ '$' := fun h => hp (h ▸ List.mem_cons_self c t)
    rw [List.cons_append, scanDouble_cons_ne c (t ++ s) hc,
      ih (fun h => hp (List.mem_cons_of_mem c h))]
    rfl

theorem scanSingle_nil_eq : scanSingle [] = [] := by
  simp [scanSingle]

theorem scanSingle_cons_ne (c : Char) (rest : List Char) (hc : c ≠ '$') :
    scanSingle (c :: rest) = c :: scanSingle rest := by
  rw [scanSingle.eq_def]
  split
  · rename_i h
    simp at h
  · rename_i h
    injection h with h1 h2
    exact absurd h1 hc
  · rename_i hno heq
    injection heq with h1 h2
    subst h1
    subst h2
    rfl

theorem scanSingle_fail (rest : List Char)
    (h : ¬ (rest.takeWhile (fun c => c ≠ '$' ∧ c ≠ '\n') ≠ [] ∧
      startsDollar (rest.dropWhile (fun c => c ≠ '$' ∧ c ≠ '\n')) = true)) :
    scanSingle ('$' :: rest) = '$' :: scanSingle rest := by
  rw [scanSingle.eq_def]
  split
  · rename_i hsh
    simp at hsh
  · rename_i hsh
    injection hsh with h1 h2
    subst h2
    rw [if_neg h]
  · rename_i hno heq
    injection heq with h1 h2
    exact absurd h1.symm hno

theorem scanSingle_match (e q : List Char) (he : '$' ∉ e) (hn : '\n' ∉ e)
    (hne : e ≠ []) :
    scanSingle ('$' :: (e ++ '$' :: q)) = mathPlaceholder e ++ scanSingle q := by
  have hall : ∀ c ∈ e, (fun c => decide (c ≠ '$' ∧ c ≠ '\n')) c = true := by
    intro c hc
    simp only [decide_eq_true_iff]
    exact ⟨fun hce => he (hce ▸ hc), fun hcn => hn (hcn ▸ hc)⟩
  have htw := takeWhile_all_append (fun c => decide (c ≠ '$' ∧ c ≠ '\n')) '$' (by simp)
    e q hall
  rw [scanSingle.eq_def]
  split
  · rename_i hsh
    simp at hsh
  · rename_i hsh
    injection hsh with h1 h2
    subst h2
    rw [htw.1, htw.2]
    rw [if_pos ⟨hne, rfl⟩]
    simp
  · rename_i hno heq
    injection heq with h1 h2
    exact absurd h1.symm hno

theorem scanSingle_id (s : List Char) (hs : '$' ∉ s) : scanSingle s = s := by
  induction s with
  | nil => exact scanSingle_nil_eq
  | cons c t ih =>
    have hc : c ≠ '$' := fun h => hs (h ▸ List.mem_cons_self c t)
    rw [scanSingle_cons_ne c t hc, ih (fun h => hs (List.mem_cons_of_mem c h))]

theorem scanSingle_transparent (p s : List Char) (hp : '$' ∉ p) :
    scanSingle (p ++ s) = p ++ scanSingle s := by
  induction p with
  | nil => simp
  | cons c t ih =>
    have hc : c ≠ '$' := fun h => hp (h ▸ List.mem_cons_self c t)
    rw [List.cons_append, scanSingle_cons_ne c (t ++ s) hc,
      ih (fun h => hp (List.mem_cons_of_mem c h))]
    rfl

theorem b64Char_ne_dollar (n : Nat) : b64Char n ≠ '$' := by
  by_cases h : n < 64
  · revert n
    decide
  · unfold b64Char
    rw [List.getD_eq_default]
    · decide
    · have : b64Alphabet.length = 64 := by decide
      omega

theorem b64Encode_no_dollar (bs : List Nat) : '$' ∉ b64Encode bs := by
  induction bs using b64Encode.induct with
  | case1 => simp [b64Encode]
  | case2 b1 =>
    intro h
    simp only [b64Encode, List.mem_cons, List.not_mem_nil, or_false] at h
    rcases h with h | h | h | h
    · exact b64Char_ne_dollar _ h.symm
    · exact b64Char_ne_dollar _ h.symm
    · exact absurd h (by decide)
    · exact absurd h (by decide)
  | case3 b1 b2 =>
    intro h
    simp only [b64Encode, List.mem_cons, List.not_mem_nil, or_false] at h
    rcases h with h | h | h | h
    · exact b64Char_ne_dollar _ h.symm
    · exact b64Char_ne_dollar _ h.symm
    · exact b64Char_ne_dollar _ h.symm
    · exact absurd h (by decide)
  | case4 b1 b2 b3 rest ih =>
    intro h
    simp only [b64Encode, List.mem_cons] at h
    rcases h with h | h | h | h | h
    · exact b64Char_ne_dollar _ h.symm
    · exact b64Char_ne_dollar _ h.symm
    · exact b64Char_ne_dollar _ h.symm
    · exact b64Char_ne_dollar _ h.symm
    · exact ih h

theorem mathPlaceholder_no_dollar (e : List Char) : '$' ∉ mathPlaceholder e := by
  unfold mathPlaceholder
  intro h
  rcases List.mem_append.1 h with h1 | h1
  · rcases List.mem_append.1 h1 with h2 | h2
    · revert h2
      decide
    · exact b64Encode_no_dollar _ h2
  · revert h1
    decide

theorem head_ne_dollar (q : List Char) (hq : '$' ∉ q) : q.head? ≠ some '$' := by
  match q with
  | [] => simp
  | c :: t =>
    simp only [List.head?_cons, ne_eq, Option.some.injEq]
    intro h
    exact hq (h ▸ List.mem_cons_self c t)

theorem scanDouble_lone (q : List Char) (hq : '$' ∉ q) :
    scanDouble ('$' :: q) = '$' :: q := by
  rw [scanDouble_one_dollar q (head_ne_dollar q hq), scanDouble_id q hq]

theorem startsDollar_dropWhile_no_dollar (q : List Char) (hq : '$' ∉ q) :
    startsDollar (q.dropWhile (fun c => c ≠ '$' ∧ c ≠ '\n')) = false := by
  induction q with
  | nil => rfl
  | cons c t ih =>
    have hc : c ≠ '$' := fun h => hq (h ▸ List.mem_cons_self c t)
    have ht : '$' ∉ t := fun h => hq (List.mem_cons_of_mem c h)
    by_cases hcn : c = '\n'
    · subst hcn
      rw [List.dropWhile_cons_of_neg (by simp)]
      rfl
    · rw [List.dropWhile_cons_of_pos (by simp [hc, hcn])]
      exact ih ht

theorem startsDollar_dropWhile_newline (e x : List Char) (hn : '\n' ∈ e)
    (he : '$' ∉ e) :
    startsDollar ((e ++ x).dropWhile (fun c => c ≠ '$' ∧ c ≠ '\n')) = false := by
  induction e with
  | nil => simp at hn
  | cons c t ih =>
    have hc : c ≠ '$' := fun h => he (h ▸ List.mem_cons_self c t)
    have ht : '$' ∉ t := fun h => he (List.mem_cons_of_mem c h)
    by_cases hcn : c = '\n'
    · subst hcn
      rw [List.cons_append, List.dropWhile_cons_of_neg (by simp)]
      rfl
    · have hnt : '\n' ∈ t := by
        rcases List.mem_cons.1 hn with h | h
        · exact absurd h.symm hcn
        · exact h
      rw [List.cons_append, List.dropWhile_cons_of_pos (by simp [hc, hcn])]
      exact ih hnt ht

theorem scanSingle_lone (q : List Char) (hq : '$' ∉ q) :
    scanSingle ('$' :: q) = '$' :: q := by
  rw [scanSingle_fail q (by
    intro h
    rw [startsDollar_dropWhile_no_dollar q hq] at h
    exact absurd h.2 (by simp)), scanSingle_id q hq]

/-- C5: in the inline-math text rule, a balanced double-dollar span becomes a
single math placeholder for the whole span (the double-dollar pass runs before
the single-dollar pass, so the single form never splits it); a single-dollar
span whose body contains a literal newline is left as literal text; and an
unmatched trailing dollar is left as literal text with no placeholder. -/
theorem claim_C5_inline_math (p e q : List Char)
    (hp : '$' ∉ p) (he : '$' ∉ e) (hq : '$' ∉ q) (hne : e ≠ []) :
    (mathText (p ++ '$' :: '$' :: (e ++ '$' :: '$' :: q)) =
      p ++ mathPlaceholder e ++ q) ∧
    ('\n' ∈ e →
      mathText (p ++ '$' :: (e ++ '$' :: q)) = p ++ '$' :: (e ++ '$' :: q)) ∧
    (mathText (p ++ '$' :: e) = p ++ '$' :: e) := by
  obtain ⟨c0, e2, rfl⟩ := List.exists_cons_of_ne_nil hne
  have hc0 : c0 ≠ '$' := fun h => he (h ▸ List.mem_cons_self c0 e2)
  refine ⟨?_, ?_, ?_⟩
  · rw [mathText, scanDouble_transparent p _ hp,
      scanDouble_match (c0 :: e2) q he (by simp), scanDouble_id q hq,
      scanSingle_transparent p _ hp,
      scanSingle_transparent (mathPlaceholder (c0 :: e2)) q
        (mathPlaceholder_no_dollar (c0 :: e2)),
      scanSingle_id q hq, List.append_assoc]
  · intro hn
    rw [mathText, scanDouble_transparent p _ hp,
      scanDouble_one_dollar _ (by
        rw [List.cons_append, List.head?_cons]
        simp [hc0]),
      scanDouble_transparent (c0 :: e2) _ he, scanDouble_lone q hq,
      scanSingle_transparent p _ hp,
      scanSingle_fail _ (by
        intro hcond
        rw [startsDollar_dropWhile_newline (c0 :: e2) ('$' :: q) hn he] at hcond
        exact absurd hcond.2 (by simp)),
      scanSingle_transparent (c0 :: e2) _ he, scanSingle_lone q hq]
  · rw [mathText, scanDouble_transparent p _ hp,
      scanDouble_one_dollar _ (by
        rw [List.head?_cons]
        simp [hc0]),
      scanDouble_id (c0 :: e2) he,
      scanSingle_transparent p _ hp, scanSingle_lone (c0 :: e2) he]

/-- Witness for C5: the three behaviors at concrete strings: double form
around ab (payload trimmed ab), single form around a-newline-b left literal,
and a lone dollar before abc left literal. -/
theorem claim_C5_inline_math_witness :
    ('$' ∉ "x ".data ∧ '$' ∉ "ab".data ∧ '$' ∉ " y".data ∧ "ab".data ≠ []) ∧
    mathText ("x ".data ++ '$' :: '$' :: ("ab".data ++ '$' :: '$' :: " y".data)) =
      "x ".data ++ mathPlaceholder "ab".data ++ " y".data ∧
    mathText ("x ".data ++ '$' :: ("a\nb".data ++ '$' :: " y".data)) =
      "x ".data ++ '$' :: ("a\nb".data ++ '$' :: " y".data) ∧
    mathText ("x ".data ++ '$' :: "abc".data) = "x ".data ++ '$' :: "abc".data := by
  have h1 := claim_C5_inline_math "x ".data "ab".data " y".data
    (by decide) (by decide) (by decide) (by decide)
  have h2 := claim_C5_inline_math "x ".data "a\nb".data " y".data
    (by decide) (by decide) (by decide) (by decide)
  have h3 := claim_C5_inline_math "x ".data "abc".data " y".data
    (by decide) (by decide) (by decide) (by decide)
  exact ⟨⟨by decide, by decide, by decide, by decide⟩, h1.1,
    h2.2.1 (by decide), h3.2.2⟩

/-- C9: on either side of the extension-webview boundary, an inbound message
whose shape fails schema validation is dropped silently: the extension
handler returns with the state unchanged and no outbound action, and the
webview listener performs no action. -/
theorem claim_C9_invalid_message_dropped :
    (∀ (now : ℚ) (hasEditor scrollSync : Bool) (maxLine : Int) (st : ExtState)
        (raw : Json), parseWebviewMessage raw = none →
      handleWebviewMessage now hasEditor scrollSync maxLine st raw = (st, [])) ∧
    (∀ raw : Json, parseExtensionMessage raw = none →
      windowMessageListener raw = []) := by
  constructor
  · intro now he ss ml st raw h
    rw [handleWebviewMessage, h]
    rfl
  · intro raw h
    rw [windowMessageListener, h]
    rfl

/-- Witness for C9 at concrete malformed messages: a previewScroll whose
percent exceeds 1 is dropped by the extension, and an editorScroll missing
its source tag is ignored by the webview, while well-formed counterparts are
not dropped. -/
theorem claim_C9_invalid_message_dropped_witness :
    parseWebviewMessage (.obj [("type", .str "previewScroll"),
      ("percent", .num 2)]) = none ∧
    handleWebviewMessage 0 true true 100 ⟨0, none⟩
      (.obj [("type", .str "previewScroll"), ("percent", .num 2)]) =
      (⟨0, none⟩, []) ∧
    parseExtensionMessage (.obj [("type", .str "editorScroll"),
      ("percent", .num 1)]) = none ∧
    windowMessageListener (.obj [("type", .str "editorScroll"),
      ("percent", .num 1)]) = [] ∧
    parseWebviewMessage (.obj [("type", .str "previewScroll"),
      ("percent", .num 1)]) = some (.previewScroll 1 none) := by
  have h1 : parseWebviewMessage (.obj [("type", .str "previewScroll"),
      ("percent", .num 2)]) = none := by rfl
  have h2 : parseExtensionMessage (.obj [("type", .str "editorScroll"),
      ("percent", .num 1)]) = none := by rfl
  refine ⟨h1, claim_C9_invalid_message_dropped.1 0 true true 100 ⟨0, none⟩ _ h1,
    h2, claim_C9_invalid_message_dropped.2 _ h2, by rfl⟩

theorem textContF_dAppend : ∀ a b : DomForest,
    textContF (dAppend a b) = textContF a ++ textContF b
  | .nil, b => by simp [dAppend, textContF]
  | .cons n tl, b => by
    rw [dAppend, textContF, textContF_dAppend tl b, textContF, List.append_assoc]

theorem textContF_unwrapF : ∀ f : DomForest, textContF (unwrapF f) = textContF f
  | .nil => rfl
  | .cons (.text s) tl => by
    rw [unwrapF, textContF, textContF_unwrapF tl, textContF]
  | .cons (.el tag true cs) tl => by
    rw [unwrapF, textContF_dAppend, textContF_unwrapF cs, textContF_unwrapF tl,
      textContF, textContN]
  | .cons (.el tag false cs) tl => by
    rw [unwrapF, textContF, textContN, textContF_unwrapF cs, textContF_unwrapF tl,
      textContF, textContN]

theorem textContF_normCons (s : List Char) (r : DomForest) :
    textContF (normCons s r) = s ++ textContF r := by
  match r with
  | .nil => rfl
  | .cons (.text s2) tl2 =>
    rw [normCons, textContF, textContN, textContF, textContN, List.append_assoc]
  | .cons (.el t h cs) tl =>
    rw [show normCons s (.cons (.el t h cs) tl) = .cons (.text s) (.cons (.el t h cs) tl)
      from rfl]
    rw [textContF, textContN]

mutual
theorem textContN_normalizeN : ∀ n : DomNode,
    textContN (match n with
      | .text s => DomNode.text s
      | .el t h cs => DomNode.el t h (normalizeF cs)) = textContN n
  | .text s => rfl
  | .el t h cs => by
    rw [textContN, textContF_normalizeF cs, textContN]
theorem textContF_normalizeF : ∀ f : DomForest, textContF (normalizeF f) = textContF f
  | .nil => rfl
  | .cons (.text s) tl => by
    rw [normalizeF]
    by_cases hs : s = []
    · rw [if_pos hs, textContF_normalizeF tl, textContF, textContN, hs]
      rfl
    · rw [if_neg hs, textContF_normCons, textContF_normalizeF tl, textContF, textContN]
  | .cons (.el t h cs) tl => by
    rw [normalizeF, textContF, textContN, textContF_normalizeF cs,
      textContF_normalizeF tl, textContF, textContN]
end

theorem textContF_clearF (f : DomForest) : textContF (clearF f) = textContF f := by
  rw [clearF, textContF_normalizeF, textContF_unwrapF]

theorem segsGo_concat (qh : Char) (qt : List Char) : ∀ (s acc : List Char),
    ((segsGo qh qt s acc).map (fun p => p.2)).flatten = acc.reverse ++ s
  | [], acc => by
    rw [segsGo]
    by_cases ha : acc = []
    · rw [if_pos ha, ha]
      rfl
    · rw [if_neg ha]
      simp
  | c :: t, acc => by
    rw [segsGo]
    by_cases hm : ciPrefixAt (qh :: qt) (c :: t) = true
    · rw [if_pos hm]
      by_cases ha : acc = []
      · rw [if_pos ha, ha]
        simp only [List.nil_append, List.map_cons, List.flatten_cons,
          segsGo_concat qh qt ((c :: t).drop (qt.length + 1)) []]
        rw [List.reverse_nil, List.nil_append, List.nil_append, List.take_append_drop]
      · rw [if_neg ha]
        simp only [List.map_append, List.map_cons, List.flatten_append, List.flatten_cons,
          segsGo_concat qh qt ((c :: t).drop (qt.length + 1)) []]
        simp only [List.map_nil, List.flatten_nil, List.append_nil, List.reverse_nil,
          List.nil_append]
        rw [List.take_append_drop]
    · rw [if_neg hm]
      rw [segsGo_concat qh qt t (c :: acc)]
      simp
termination_by s _ => s.length
decreasing_by
  all_goals simp only [List.length_cons, List.length_drop]
  all_goals omega

theorem segsGo_nonempty (qh : Char) (qt : List Char) : ∀ (s acc : List Char),
    ∀ p ∈ segsGo qh qt s acc, p.2 ≠ []
  | [], acc => by
    intro p hp
    rw [segsGo] at hp
    by_cases ha : acc = []
    · rw [if_pos ha] at hp
      simp at hp
    · rw [if_neg ha] at hp
      simp at hp
      subst hp
      simpa using ha
  | c :: t, acc => by
    intro p hp
    rw [segsGo] at hp
    by_cases hm : ciPrefixAt (qh :: qt) (c :: t) = true
    · rw [if_pos hm] at hp
      rcases List.mem_append.1 hp with h1 | h1
      · by_cases ha : acc = []
        · rw [if_pos ha] at h1
          simp at h1
        · rw [if_neg ha] at h1
          simp at h1
          subst h1
          simpa using ha
      · rcases List.mem_cons.1 h1 with rfl | h2
        · simp
        · exact segsGo_nonempty qh qt _ [] p h2
    · rw [if_neg hm] at hp
      exact segsGo_nonempty qh qt t (c :: acc) p hp
termination_by s _ => s.length
decreasing_by
  all_goals simp only [List.length_cons, List.length_drop]
  all_goals omega

theorem textContF_segsFold : ∀ segs : List (Bool × List Char),
    textContF (segs.foldr
      (fun p r =>
        if p.1 then DomForest.cons (.el "mark" true (.cons (.text p.2) .nil)) r
        else DomForest.cons (.text p.2) r) .nil) =
      (segs.map (fun p => p.2)).flatten
  | [] => rfl
  | p :: rest => by
    rw [List.foldr_cons, List.map_cons, List.flatten_cons]
    by_cases hb : p.1 = true
    · rw [if_pos hb, textContF, textContN, textContF, textContN, textContF,
        List.append_nil, textContF_segsFold rest]
    · rw [if_neg hb, textContF, textContN, textContF_segsFold rest]

theorem textContF_piecesF (qh : Char) (qt : List Char) (s : List Char) :
    textContF (piecesF qh qt s) = s := by
  rw [piecesF, textContF_segsFold]
  have h := segsGo_concat qh qt s []
  rw [List.reverse_nil, List.nil_append] at h
  exact h

theorem textContF_hlF (qh : Char) (qt : List Char) : ∀ f : DomForest,
    textContF (hlF qh qt f) = textContF f
  | .nil => rfl
  | .cons (.text s) tl => by
    rw [hlF]
    by_cases h1 : jsTrim s = []
    · rw [if_pos h1, textContF, textContF_hlF qh qt tl]
      rfl
    · rw [if_neg h1]
      by_cases h2 : hasOcc (qh :: qt) s = true
      · rw [if_pos h2, textContF_dAppend, textContF_piecesF, textContF_hlF qh qt tl,
          textContF, textContN]
      · rw [if_neg h2, textContF, textContF_hlF qh qt tl]
        rfl
  | .cons (.el tag hit cs) tl => by
    rw [hlF]
    by_cases h1 : excludedTag tag = true
    · rw [if_pos h1, textContF, textContF_hlF qh qt tl]
      rfl
    · rw [if_neg h1, textContF, textContN, textContF_hlF qh qt cs, textContF_hlF qh qt tl,
        textContF, textContN]

theorem dAppend_assoc : ∀ a b c : DomForest,
    dAppend (dAppend a b) c = dAppend a (dAppend b c)
  | .nil, b, c => rfl
  | .cons n tl, b, c => by
    rw [dAppend, dAppend, dAppend, dAppend_assoc tl b c]

theorem markFreeF_dAppend : ∀ a b : DomForest,
    markFreeF (dAppend a b) = (markFreeF a && markFreeF b)
  | .nil, b => by simp [dAppend, markFreeF]
  | .cons n tl, b => by
    rw [dAppend, markFreeF, markFreeF_dAppend tl b, markFreeF, Bool.and_assoc]

theorem markFreeF_unwrapF : ∀ f : DomForest, markFreeF (unwrapF f) = true
  | .nil => rfl
  | .cons (.text s) tl => by
    rw [unwrapF, markFreeF, markFreeN, markFreeF_unwrapF tl]
    rfl
  | .cons (.el tag true cs) tl => by
    rw [unwrapF, markFreeF_dAppend, markFreeF_unwrapF cs, markFreeF_unwrapF tl]
    rfl
  | .cons (.el tag false cs) tl => by
    rw [unwrapF, markFreeF, markFreeN, markFreeF_unwrapF cs, markFreeF_unwrapF tl]
    rfl

theorem markFreeF_normCons (s : List Char) (r : DomForest) :
    markFreeF (normCons s r) = markFreeF r := by
  match r with
  | .nil => rfl
  | .cons (.text s2) tl2 =>
    rw [normCons, markFreeF, markFreeN, markFreeF, markFreeN]
  | .cons (.el t h cs) tl =>
    rw [show normCons s (.cons (.el t h cs) tl) = .cons (.text s) (.cons (.el t h cs) tl)
      from rfl]
    rw [markFreeF, markFreeN, Bool.true_and]

theorem markFreeF_normalizeF : ∀ f : DomForest,
    markFreeF (normalizeF f) = markFreeF f
  | .nil => rfl
  | .cons (.text s) tl => by
    rw [normalizeF]
    by_cases hs : s = []
    · rw [if_pos hs, markFreeF_normalizeF tl, markFreeF, markFreeN, Bool.true_and]
    · rw [if_neg hs, markFreeF_normCons, markFreeF_normalizeF tl, markFreeF, markFreeN,
        Bool.true_and]
  | .cons (.el t h cs) tl => by
    rw [normalizeF, markFreeF, markFreeN, markFreeF_normalizeF cs,
      markFreeF_normalizeF tl, markFreeF, markFreeN]

theorem markFreeF_clearF (f : DomForest) : markFreeF (clearF f) = true := by
  rw [clearF, markFreeF_normalizeF, markFreeF_unwrapF]

theorem unwrapF_id : ∀ f : DomForest, markFreeF f = true → unwrapF f = f
  | .nil, _ => rfl
  | .cons (.text s) tl, h => by
    rw [markFreeF] at h
    simp only [markFreeN, Bool.true_and] at h
    rw [unwrapF, unwrapF_id tl h]
  | .cons (.el tag true cs) tl, h => by
    rw [markFreeF] at h
    simp [markFreeN] at h
  | .cons (.el tag false cs) tl, h => by
    rw [markFreeF] at h
    simp only [markFreeN, Bool.not_false, Bool.true_and, Bool.and_eq_true] at h
    rw [unwrapF, unwrapF_id cs h.1, unwrapF_id tl h.2]

theorem normCons_of_not_text (s : List Char) (r : DomForest)
    (h : headIsText r = false) : normCons s r = .cons (.text s) r := by
  match r with
  | .nil => rfl
  | .cons (.text s2) tl2 => simp [headIsText] at h
  | .cons (.el t hh cs) tl => rfl

theorem normalizeF_id : ∀ f : DomForest, normedF f = true → normalizeF f = f
  | .nil, _ => rfl
  | .cons (.text s) tl, h => by
    rw [normedF] at h
    simp only [Bool.and_eq_true, Bool.not_eq_true', decide_eq_true_iff] at h
    obtain ⟨⟨hs, hh⟩, ht⟩ := h
    rw [normalizeF, if_neg hs, normalizeF_id tl ht, normCons_of_not_text s tl hh]
  | .cons (.el t hb cs) tl, h => by
    rw [normedF] at h
    simp only [Bool.and_eq_true] at h
    rw [normalizeF, normalizeF_id cs h.1, normalizeF_id tl h.2]

theorem clearF_id (f : DomForest) (hm : markFreeF f = true) (hn : normedF f = true) :
    clearF f = f := by
  rw [clearF, unwrapF_id f hm, normalizeF_id f hn]

theorem unwrapF_dAppend : ∀ a b : DomForest,
    unwrapF (dAppend a b) = dAppend (unwrapF a) (unwrapF b)
  | .nil, b => rfl
  | .cons (.text s) tl, b => by
    rw [dAppend, unwrapF, unwrapF_dAppend tl b, unwrapF, dAppend]
  | .cons (.el tag true cs) tl, b => by
    rw [dAppend, unwrapF, unwrapF_dAppend tl b, unwrapF, dAppend_assoc]
  | .cons (.el tag false cs) tl, b => by
    rw [dAppend, unwrapF, unwrapF_dAppend tl b, unwrapF, dAppend]

theorem unwrapF_segsFold : ∀ segs : List (Bool × List Char),
    unwrapF (segs.foldr
      (fun p r =>
        if p.1 then DomForest.cons (.el "mark" true (.cons (.text p.2) .nil)) r
        else DomForest.cons (.text p.2) r) .nil) = textsF segs
  | [] => rfl
  | p :: rest => by
    rw [List.foldr_cons]
    by_cases hb : p.1 = true
    · rw [if_pos hb, unwrapF, unwrapF_segsFold rest]
      rw [show unwrapF (.cons (.text p.2) .nil) = .cons (.text p.2) .nil from rfl]
      rw [show textsF (p :: rest) = .cons (.text p.2) (textsF rest) from rfl]
      rfl
    · rw [if_neg hb, unwrapF, unwrapF_segsFold rest]
      rw [show textsF (p :: rest) = .cons (.text p.2) (textsF rest) from rfl]

theorem unwrapF_piecesF (qh : Char) (qt : List Char) (s : List Char) :
    unwrapF (piecesF qh qt s) = textsF (segsGo qh qt s []) := by
  rw [piecesF, unwrapF_segsFold]

theorem normalize_texts : ∀ pieces : List (Bool × List Char),
    pieces ≠ [] → (∀ p ∈ pieces, p.2 ≠ []) → ∀ r : DomForest,
      headIsText (normalizeF r) = false →
      normalizeF (dAppend (textsF pieces) r) =
        .cons (.text (pieces.map (fun p => p.2)).flatten) (normalizeF r)
  | [], hne, _, _, _ => absurd rfl hne
  | [p], _, hnonempty, r, hr => by
    rw [textsF, List.foldr_cons, List.foldr_nil]
    rw [show dAppend (.cons (.text p.2) .nil) r = .cons (.text p.2) r from rfl]
    rw [normalizeF, if_neg (hnonempty p (by simp)), normCons_of_not_text _ _ hr]
    simp
  | p :: p2 :: rest, _, hnonempty, r, hr => by
    rw [textsF, List.foldr_cons]
    rw [show DomForest.cons (.text p.2)
        ((p2 :: rest).foldr (fun p r => DomForest.cons (.text p.2) r) .nil) =
        .cons (.text p.2) (textsF (p2 :: rest)) from rfl]
    rw [show dAppend (.cons (.text p.2) (textsF (p2 :: rest))) r =
        .cons (.text p.2) (dAppend (textsF (p2 :: rest)) r) from rfl]
    rw [normalizeF, if_neg (hnonempty p (by simp))]
    rw [normalize_texts (p2 :: rest) (by simp)
      (fun x hx => hnonempty x (by simp [hx])) r hr]
    rw [normCons]
    simp

theorem clear_hl (qh : Char) (qt : List Char) : ∀ f : DomForest,
    normedF f = true → markFreeF f = true →
    normalizeF (unwrapF (hlF qh qt f)) = f
  | .nil, _, _ => rfl
  | .cons (.text s) tl, hn, hm => by
    rw [normedF] at hn
    simp only [Bool.and_eq_true, Bool.not_eq_true', decide_eq_true_iff] at hn
    obtain ⟨⟨hs, hh⟩, ht⟩ := hn
    rw [markFreeF] at hm
    simp only [markFreeN, Bool.true_and] at hm
    have hih := clear_hl qh qt tl ht hm
    rw [hlF]
    by_cases h1 : jsTrim s = []
    · rw [if_pos h1, unwrapF, normalizeF, if_neg hs, hih,
        normCons_of_not_text s tl hh]
    · rw [if_neg h1]
      by_cases h2 : hasOcc (qh :: qt) s = true
      · rw [if_pos h2, unwrapF_dAppend, unwrapF_piecesF]
        have hflat : ((segsGo qh qt s []).map (fun p => p.2)).flatten = s := by
          have h := segsGo_concat qh qt s []
          rw [List.reverse_nil, List.nil_append] at h
          exact h
        have hsegne : segsGo qh qt s [] ≠ [] := by
          intro hemp
          rw [hemp] at hflat
          simp at hflat
          exact hs ((hflat.symm.trans rfl).symm)
        rw [normalize_texts (segsGo qh qt s []) hsegne
          (fun p hp => segsGo_nonempty qh qt s [] p hp)
          (unwrapF (hlF qh qt tl)) (by rw [hih]; exact hh)]
        rw [hih, hflat]
      · rw [if_neg h2, unwrapF, normalizeF, if_neg hs, hih,
          normCons_of_not_text s tl hh]
  | .cons (.el tag hit cs) tl, hn, hm => by
    rw [normedF] at hn
    simp only [Bool.and_eq_true] at hn
    rw [markFreeF] at hm
    simp only [markFreeN, Bool.and_eq_true, Bool.not_eq_true'] at hm
    obtain ⟨⟨hhit, hmcs⟩, hmtl⟩ := hm
    subst hhit
    have hih := clear_hl qh qt tl hn.2 hmtl
    rw [hlF]
    by_cases h1 : excludedTag tag = true
    · rw [if_pos h1, unwrapF, normalizeF, unwrapF_id cs hmcs, normalizeF_id cs hn.1, hih]
    · rw [if_neg h1, unwrapF, normalizeF, clear_hl qh qt cs hn.1 hmcs, hih]

/-- C7: over a hydrated content tree (HTML-parser normal form, no leftover
hit marks), the concatenated text content is identical before highlighting,
after a query, and after clearing; clearing leaves no hit wrapper behind; and
clear followed by the same query reproduces the identical tree, hence the
same hit spans at the same text offsets. -/
theorem claim_C7_search_roundtrip (term : List Char) (f : DomForest)
    (hn : normedF f = true) (hm : markFreeF f = true) :
    textContF (queryF term f) = textContF f ∧
    textContF (clearF (queryF term f)) = textContF f ∧
    markFreeF (clearF (queryF term f)) = true ∧
    queryF term (clearF (queryF term f)) = queryF term f ∧
    hitsF 0 (queryF term (clearF (queryF term f))) = hitsF 0 (queryF term f) := by
  have hcf : clearF f = f := clearF_id f hm hn
  rcases htr : jsTrim term with _ | ⟨qh, qt⟩
  · have hq : queryF term f = f := by
      rw [queryF, htr, hcf]
    have hq2 : clearF (queryF term f) = f := by
      rw [hq, hcf]
    refine ⟨by rw [hq], by rw [hq2], by rw [hq]; exact markFreeF_clearF f, ?_, ?_⟩
    · rw [hq2, hq]
    · rw [hq2, hq]
  · have hq : queryF term f = hlF qh qt f := by
      rw [queryF, htr, hcf]
    have hclear : clearF (queryF term f) = f := by
      rw [hq, clearF]
      exact clear_hl qh qt f hn hm
    refine ⟨?_, ?_, ?_, ?_, ?_⟩
    · rw [hq, textContF_hlF]
    · rw [hclear]
    · rw [hq, clearF, markFreeF_normalizeF, markFreeF_unwrapF]
    · rw [hclear]
    · rw [hclear]

/-- Witness for C7 on a concrete tree: a paragraph containing axbax queried
for ax keeps its text content, and clear plus the same query reproduces the
identical tree and hit spans. -/
theorem claim_C7_search_roundtrip_witness :
    normedF (.cons (.el "p" false (.cons (.text "axbax".data) .nil)) .nil) = true ∧
    markFreeF (.cons (.el "p" false (.cons (.text "axbax".data) .nil)) .nil) = true ∧
    (textContF (queryF "ax".data
        (.cons (.el "p" false (.cons (.text "axbax".data) .nil)) .nil)) =
      textContF (.cons (.el "p" false
        (.cons (.text "axbax".data) .nil)) DomForest.nil) ∧
     queryF "ax".data (clearF (queryF "ax".data
        (.cons (.el "p" false (.cons (.text "axbax".data) .nil)) .nil))) =
      queryF "ax".data
        (.cons (.el "p" false (.cons (.text "axbax".data) .nil)) .nil) ∧
     hitsF 0 (queryF "ax".data (clearF (queryF "ax".data
        (.cons (.el "p" false (.cons (.text "axbax".data) .nil)) .nil)))) =
      hitsF 0 (queryF "ax".data
        (.cons (.el "p" false (.cons (.text "axbax".data) .nil)) .nil))) := by
  have h := claim_C7_search_roundtrip "ax".data
    (.cons (.el "p" false (.cons (.text "axbax".data) .nil)) .nil)
    (by decide) (by decide)
  exact ⟨by decide, by decide, h.1, h.2.2.2.1, h.2.2.2.2⟩

end Spec2Proof